import Mathlib

/-! Verification of the declarative configuration resolution engine of
the palladium repository (src/palladium/config.py).

The embedding models Python values as trees tagged with object
identities: every mutable container (dict, list, instantiated
component) carries a numeric id standing for its Python object
identity, so that the source's `value is props` check and
`deepcopy`'s allocation of fresh objects can be expressed.  Fresh ids
are drawn from a counter threaded through the operations.  Factories
are kept symbolic: instantiating `{'__factory__': F, ...}` produces
the opaque value `V.comp id F kwargs`, recording which factory was
called with which (already resolved) keyword arguments — the calls
into user code (`resolve_dotted_name`, the factory itself,
`initialize_component`, logging setup) are external collaborators and
are outside the model.  Fallible code returns `Except Err`.
-/

set_option autoImplicit false

/-- Python exceptions raised by the configuration engine. -/
inductive Err : Type where
  | keyError (k : String)
  | typeError (msg : String)
  | attrError (msg : String)
  | runtimeError (msg : String)
deriving Repr, DecidableEq

mutual

/-- A Python value as handled by palladium's config engine: scalars,
dicts and lists (each carrying an object id), tuples, and opaque
instantiated components (`V.comp id factoryName kwargs`). -/
inductive V : Type where
  | s (x : String)
  | i (x : Int)
  | b (x : Bool)
  | null
  | dict (id : Nat) (es : Entries)
  | list (id : Nat) (xs : Items)
  | tup (xs : Items)
  | comp (id : Nat) (factory : String) (kwargs : Entries)
deriving Repr

/-- The insertion-ordered entries of a Python dict. -/
inductive Entries : Type where
  | nil
  | cons (k : String) (v : V) (rest : Entries)
deriving Repr

/-- The elements of a Python list or tuple. -/
inductive Items : Type where
  | nil
  | cons (v : V) (rest : Items)
deriving Repr

end

namespace Entries

/-- Dict key membership, `k in d`. -/
def hasKey : Entries → String → Bool
  | .nil, _ => false
  | .cons k _ rest, key => if k = key then true else rest.hasKey key

/-- Dict lookup, `d[k]`, as an Option. -/
def get : Entries → String → Option V
  | .nil, _ => none
  | .cons k v rest, key => if k = key then some v else rest.get key

/-- Dict item assignment `d[k] = v`: an existing key keeps its
position, a new key is appended (CPython insertion order). -/
def set : Entries → String → V → Entries
  | .nil, key, v => .cons key v .nil
  | .cons k w rest, key, v =>
      if k = key then .cons k v rest else .cons k w (rest.set key v)

/-- Python `d.update(other)`: item assignment for each entry of
`other` in order. -/
def update : Entries → Entries → Entries
  | es, .nil => es
  | es, .cons k v rest => (es.set k v).update rest

/-- Python `del d[k]` (removes the entry if present). -/
def erase : Entries → String → Entries
  | .nil, _ => .nil
  | .cons k v rest, key => if k = key then rest else .cons k v (rest.erase key)

/-- Number of entries, `len(d)`. -/
def length : Entries → Nat
  | .nil => 0
  | .cons _ _ rest => rest.length + 1

/-- Concatenation of two entry sequences (metatheory helper). -/
def append : Entries → Entries → Entries
  | .nil, es => es
  | .cons k v rest, es => .cons k v (rest.append es)

end Entries

namespace Items

/-- Number of elements. -/
def length : Items → Nat
  | .nil => 0
  | .cons _ rest => rest.length + 1

/-- Concatenation of two item sequences (metatheory helper). -/
def append : Items → Items → Items
  | .nil, xs => xs
  | .cons v rest, xs => .cons v (rest.append xs)

end Items

/-- Object-identity check `value is props` against a dict with object
id `pid`: true exactly when `value` is a dict carrying the same id.
(The copy handler only ever compares against the dict node currently
being processed.) -/
def sameObj (v : V) (pid : Nat) : Bool :=
  match v with
  | .dict j _ => j = pid
  | _ => false

mutual

/-- Python `copy.deepcopy`: structurally copies the value, giving
every mutable container a fresh object id drawn from the counter. -/
def deepcopyV : V → Nat → V × Nat
  | .dict _ es, c =>
      let (es', c') := deepcopyE es (c + 1)
      (.dict c es', c')
  | .list _ xs, c =>
      let (xs', c') := deepcopyI xs (c + 1)
      (.list c xs', c')
  | .tup xs, c =>
      let (xs', c') := deepcopyI xs c
      (.tup xs', c')
  | .comp _ f kw, c =>
      let (kw', c') := deepcopyE kw (c + 1)
      (.comp c f kw', c')
  | v, c => (v, c)

/-- Deepcopy of dict entries. -/
def deepcopyE : Entries → Nat → Entries × Nat
  | .nil, c => (.nil, c)
  | .cons k v rest, c =>
      let (v', c') := deepcopyV v c
      let (rest', c'') := deepcopyE rest c'
      (.cons k v' rest', c'')

/-- Deepcopy of list/tuple items. -/
def deepcopyI : Items → Nat → Items × Nat
  | .nil, c => (.nil, c)
  | .cons v rest, c =>
      let (v', c') := deepcopyV v c
      let (rest', c'') := deepcopyI rest c'
      (.cons v' rest', c'')

end

example : Entries.get (.cons "a" (.i 1) (.cons "b" (.i 2) .nil)) "b" = some (.i 2) := rfl
example : Entries.update (.cons "a" (.i 1) .nil) (.cons "a" (.i 7) (.cons "c" (.i 3) .nil))
    = .cons "a" (.i 7) (.cons "c" (.i 3) .nil) := rfl

/-! ## Copy handler (`CopyHandler` in config.py) -/

/-- Result of walking one dotted path through one candidate config:
`found` when every segment resolves, `miss k` when a dict lookup
raises `KeyError` at segment `k` (caught by the source's
`except KeyError: break`), `fatal` when `value[part]` is applied to a
non-dict value, which raises an uncaught `TypeError`. -/
inductive Lk : Type where
  | found (v : V)
  | miss (k : String)
  | fatal
deriving Repr

/-- The inner loop of `CopyHandler._resolve`: walk the path segments
through one candidate config by successive subscription. -/
def lookupParts : V → List String → Lk
  | v, [] => .found v
  | v, p :: ps =>
      match v with
      | .dict _ es =>
          match es.get p with
          | some w => lookupParts w ps
          | none => .miss p
      | _ => .fatal

/-- The outer loop of `CopyHandler._resolve`: try each candidate in
order (the caller passes `configs[::-1]`, most recent first); the
first candidate where every segment resolves wins; if none does,
raise `KeyError(dotted_path)`. -/
def resolveGo (path : String) (parts : List String) : List V → Except Err V
  | [] => .error (.keyError path)
  | c :: rest =>
      match lookupParts c parts with
      | .found v => .ok v
      | .miss _ => resolveGo path parts rest
      | .fatal => .error (.typeError "subscript of non-dict value")

/-- Model of `CopyHandler._resolve(configs, dotted_path)`: iterate
`configs[::-1]`. -/
def resolveCfgs (cs : List V) (path : String) (parts : List String) : Except Err V :=
  resolveGo path parts cs.reverse

/-- Python `dotted_path.split('.')` (character-exact: empty segments
are kept, an empty string yields one empty segment). -/
def splitDotsAux : List Char → List Char → List String
  | [], acc => [String.mk acc.reverse]
  | c :: cs, acc =>
      if c = '.' then String.mk acc.reverse :: splitDotsAux cs []
      else splitDotsAux cs (c :: acc)

/-- Split a dotted path on the dot character. -/
def splitDots (s : String) : List String :=
  splitDotsAux s.data []

/-- Python `configs[-1:]`. -/
def lastOne (cs : List V) : List V :=
  match cs.getLast? with
  | some c => [c]
  | none => []

/-- The candidate-selection logic of `CopyHandler.__call__`: probe
`configs[-1:]` for the path; if the value found is the very node
being processed (`value is props`, here: a dict with id `pid`),
re-resolve using only `configs[:-1]` — the snapshots taken before the
current source was merged; otherwise resolve against all of
`configs`.  A `KeyError` from the probe means no self-reference; any
other error propagates. -/
def copyResolve (cs : List V) (path : String) (parts : List String) (pid : Nat) :
    Except Err V :=
  match resolveCfgs (lastOne cs) path parts with
  | .error (.keyError _) => resolveCfgs cs path parts
  | .error e => .error e
  | .ok v =>
      if sameObj v pid then resolveCfgs cs.dropLast path parts
      else resolveCfgs cs path parts

/-- Python `key in value` for an arbitrary value: key test on dicts,
element equality on lists and tuples, substring test on strings, and
`TypeError` on values with no `__contains__`/`__iter__`. -/
def containsPy (v : V) (key : String) : Except Err Bool :=
  match v with
  | .dict _ es => .ok (es.hasKey key)
  | .list _ xs => .ok (memStr xs)
  | .tup xs => .ok (memStr xs)
  | .s str => .ok (decide ((str.splitOn key).length > 1))
  | _ => .error (.typeError "argument of type is not iterable")
where
  /-- Membership of the key string among list items. -/
  memStr : Items → Bool
    | .nil => false
    | .cons (.s x) rest => if x = key then true else memStr rest
    | .cons _ rest => memStr rest

/-- The tail of `CopyHandler.__call__` after the value is resolved:
deep-copy it and, if the node has keys beyond `__copy__`, merge them
into the copy as overrides (`value.update(props)`), deleting the
`__copy__` key from the result unless the copied value itself carried
one (`recursive_copy`).  `update` on a non-dict raises
`AttributeError`. -/
def copyFinish (v : V) (es : Entries) (c : Nat) : Except Err (V × Nat) :=
  let (v', c') := deepcopyV v c
  if es.length > 1 then
    match containsPy v' "__copy__" with
    | .error e => .error e
    | .ok rc =>
        match v' with
        | .dict j ds =>
            let ds₁ := ds.update es
            let ds₂ := if rc then ds₁ else ds₁.erase "__copy__"
            .ok (.dict j ds₂, c')
        | _ => .error (.attrError "object has no attribute update")
  else
    .ok (v', c')

/-- Model of `CopyHandler.__call__(name, props)` for a handler created with the
snapshot list `cs`; the state is the fresh-id counter used by
`deepcopy`. -/
def copyCall (cs : List V) (_name : String) (props : V) (c : Nat) :
    Except Err (V × Nat) :=
  match props with
  | .dict pid es =>
      match es.get "__copy__" with
      | some (.s path) =>
          match copyResolve cs path (splitDots path) pid with
          | .error e => .error e
          | .ok v => copyFinish v es c
      | some _ => .error (.attrError "object has no attribute split")
      | none => .error (.keyError "__copy__")
  | _ => .error (.typeError "props is not a dict")

example :
    resolveCfgs [V.dict 0 (.cons "a" (.dict 1 (.cons "b" (.i 5) .nil)) .nil)]
      "a.b" ["a", "b"] = .ok (.i 5) := rfl
example :
    resolveCfgs [V.dict 0 .nil] "does.not.exist" ["does", "not", "exist"]
      = .error (.keyError "does.not.exist") := rfl

/-! ## Tree walker (`_run_config_handlers_recursive` in config.py) -/

/-- A directive handler bound to one key: called with the mapping key
(or stringified index) under which the node is stored, the node, and
the handler state; returns the replacement node. -/
def Handler (σ : Type) : Type := String → V → σ → Except Err (V × σ)

/-- Python `name in value` as the walker uses it (`value` is always a
dict there). -/
def keyIn (v : V) (K : String) : Bool :=
  match v with
  | .dict _ es => es.hasKey K
  | _ => false

mutual

/-- Model of `_run_config_handlers_recursive(props, handlers)` for the single
handler `h` bound to directive key `K`: the recursion into one node.
Scalars and components are left alone; for dicts and sequences the
children are processed by `walkE`/`walkI`. -/
def walkV {σ : Type} (K : String) (h : Handler σ) : V → σ → Except Err (V × σ)
  | .dict i es, st =>
      match walkE K h es st with
      | .error e => .error e
      | .ok (es', st') => .ok (.dict i es', st')
  | .list i xs, st =>
      match walkI K h false 0 xs st with
      | .error e => .error e
      | .ok (xs', st') => .ok (.list i xs', st')
  | .tup xs, st =>
      match walkI K h true 0 xs st with
      | .error e => .error e
      | .ok (xs', st') => .ok (.tup xs', st')
  | v, st => .ok (v, st)

/-- The dict loop of the walker: for each value that is a dict,
recurse into it first (post-order), then, if the directive key is
present, substitute `handler(key, value)` for it; for list/tuple
values recurse only. -/
def walkE {σ : Type} (K : String) (h : Handler σ) : Entries → σ → Except Err (Entries × σ)
  | .nil, st => .ok (.nil, st)
  | .cons k v rest, st =>
      match v with
      | .dict _ _ =>
          match walkV K h v st with
          | .error e => .error e
          | .ok (v₁, st₁) =>
              if keyIn v₁ K then
                match h k v₁ st₁ with
                | .error e => .error e
                | .ok (v₂, st₂) =>
                    match walkE K h rest st₂ with
                    | .error e => .error e
                    | .ok (rest', st₃) => .ok (.cons k v₂ rest', st₃)
              else
                match walkE K h rest st₁ with
                | .error e => .error e
                | .ok (rest', st₂) => .ok (.cons k v₁ rest', st₂)
      | .list _ _ =>
          match walkV K h v st with
          | .error e => .error e
          | .ok (v₁, st₁) =>
              match walkE K h rest st₁ with
              | .error e => .error e
              | .ok (rest', st₂) => .ok (.cons k v₁ rest', st₂)
      | .tup _ =>
          match walkV K h v st with
          | .error e => .error e
          | .ok (v₁, st₁) =>
              match walkE K h rest st₁ with
              | .error e => .error e
              | .ok (rest', st₂) => .ok (.cons k v₁ rest', st₂)
      | _ =>
          match walkE K h rest st with
          | .error e => .error e
          | .ok (rest', st') => .ok (.cons k v rest', st')

/-- The sequence loop of the walker, with the running index
(stringified as the handler's name argument).  For a directive-bearing
dict element the handler runs first; the subsequent item assignment
`props[i] = ...` raises `TypeError` when the sequence is a tuple
(tuples are immutable) and replaces the element when it is a list. -/
def walkI {σ : Type} (K : String) (h : Handler σ) (isTup : Bool) (idx : Nat) :
    Items → σ → Except Err (Items × σ)
  | .nil, st => .ok (.nil, st)
  | .cons v rest, st =>
      match v with
      | .dict _ _ =>
          match walkV K h v st with
          | .error e => .error e
          | .ok (v₁, st₁) =>
              if keyIn v₁ K then
                match h (toString idx) v₁ st₁ with
                | .error e => .error e
                | .ok (v₂, st₂) =>
                    if isTup then
                      .error (.typeError "tuple object does not support item assignment")
                    else
                      match walkI K h isTup (idx + 1) rest st₂ with
                      | .error e => .error e
                      | .ok (rest', st₃) => .ok (.cons v₂ rest', st₃)
              else
                match walkI K h isTup (idx + 1) rest st₁ with
                | .error e => .error e
                | .ok (rest', st₂) => .ok (.cons v₁ rest', st₂)
      | .list _ _ =>
          match walkV K h v st with
          | .error e => .error e
          | .ok (v₁, st₁) =>
              match walkI K h isTup (idx + 1) rest st₁ with
              | .error e => .error e
              | .ok (rest', st₂) => .ok (.cons v₁ rest', st₂)
      | .tup _ =>
          match walkV K h v st with
          | .error e => .error e
          | .ok (v₁, st₁) =>
              match walkI K h isTup (idx + 1) rest st₁ with
              | .error e => .error e
              | .ok (rest', st₂) => .ok (.cons v₁ rest', st₂)
      | _ =>
          match walkI K h isTup (idx + 1) rest st with
          | .error e => .error e
          | .ok (rest', st') => .ok (.cons v rest', st')

end

/-! ## Component handler (`ComponentHandler`), python handler
(`PythonHandler`), phase drivers and `process_config` -/

/-- ComponentHandler state: the fresh-id counter and the ordered
instantiation list `self.components`. -/
structure CompSt : Type where
  cnt : Nat
  comps : List V
deriving Repr

/-- Model of `ComponentHandler.__call__(name, props)`: copy the node, pop the
`__factory__` key to obtain the dotted factory name, call the factory
with the remaining entries as keyword arguments, and record the
instance in construction order.  Factory calls are symbolic: the
result is the opaque `V.comp` value recording the factory name and
its (already resolved) keyword arguments.  The best-effort provenance
tagging (`__pld_config_key__`) and `resolve_dotted_name` are external
and not represented; a non-string factory name makes
`resolve_dotted_name` fail, modelled as a `TypeError`. -/
def compCall (_name : String) (props : V) (st : CompSt) : Except Err (V × CompSt) :=
  match props with
  | .dict _ es =>
      match es.get "__factory__" with
      | some (.s f) =>
          let cmp := V.comp st.cnt f (es.erase "__factory__")
          .ok (cmp, ⟨st.cnt + 1, st.comps ++ [cmp]⟩)
      | some _ => .error (.typeError "factory name is not a dotted string")
      | none => .error (.keyError "__factory__")
  | _ => .error (.typeError "props is not a dict")

/-- Model of `PythonHandler.__call__(name, props)`: pop the `__python__` key
and `exec` the statements against `self.config`, then return the
(mutated) node.  The `exec` itself is external Python and enters the
model as the parameter `pyExec : statements → tree → tree`.  In the
pipeline below the handler is applied at the root of the tree, where
`self.config` *is* `props`, so the mutation of `self.config` is the
transformation of the popped node itself; theorems about the python
phase restrict `__python__` directives to that position. -/
def pyCall (pyExec : String → V → V) (_name : String) (props : V) (u : Unit) :
    Except Err (V × Unit) :=
  match props with
  | .dict pid es =>
      match es.get "__python__" with
      | some (.s stmts) => .ok (pyExec stmts (.dict pid (es.erase "__python__")), u)
      | some _ => .error (.typeError "exec arg must be a string")
      | none => .error (.keyError "__python__")
  | _ => .error (.typeError "props is not a dict")

/-- One `_run_config_handlers` pass of the copy phase
(`handlers0([...])`), with the snapshot list `cs`.  The walker is run
on `{'root': config_final}`; a replacement of the root node itself is
computed (its errors and id-counter effects happen) but discarded,
because `process_config` ignores the walker's return value and the
copy handler does not mutate the node in place. -/
def runPhase0 (cs : List V) (cf : V) (c : Nat) : Except Err (V × Nat) :=
  match walkV "__copy__" (copyCall cs) cf c with
  | .error e => .error e
  | .ok (cf', c') =>
      if keyIn cf' "__copy__" then
        match copyCall cs "root" cf' c' with
        | .error e => .error e
        | .ok (_, c'') => .ok (cf', c'')
      else
        .ok (cf', c')

/-- The `_run_config_handlers` pass of the python phase
(`handlers1(config_final)`).  At the root, `self.config is props`, so
the handler's in-place mutation of `self.config` is exactly its
return value, which is kept. -/
def runPhase1 (pyExec : String → V → V) (cf : V) : Except Err V :=
  match walkV "__python__" (pyCall pyExec) cf () with
  | .error e => .error e
  | .ok (cf', _) =>
      if keyIn cf' "__python__" then
        match pyCall pyExec "root" cf' () with
        | .error e => .error e
        | .ok (v, _) => .ok v
      else
        .ok cf'

/-- The `_run_config_handlers` pass of the component phase
(`handlers2(config_final)`): run the walk with an empty instantiation
list, handling a directive at the root like `runPhase0` (the
component is created and recorded, but the root replacement is
discarded by `process_config`).  The `finish()` step then calls
`initialize_component(config)` on each recorded component in
construction order — external calls that leave the tree unchanged. -/
def runPhase2 (cf : V) (c : Nat) : Except Err (V × CompSt) :=
  match walkV "__factory__" compCall cf ⟨c, []⟩ with
  | .error e => .error e
  | .ok (cf', st) =>
      if keyIn cf' "__factory__" then
        match compCall "root" cf' st with
        | .error e => .error e
        | .ok (_, st') => .ok (cf', st')
      else
        .ok (cf', st)

/-- Top-level shallow merge `config_final.update(config)`; sources
are dicts (updating from a non-mapping raises `TypeError`). -/
def updTop (cf src : V) : Except Err V :=
  match cf, src with
  | .dict i es, .dict _ ses => .ok (.dict i (es.update ses))
  | _, _ => .error (.typeError "update requires dicts")

/-- The merge loop of `process_config`: for each source, snapshot the
accumulated tree (`config_org = deepcopy(config_final)`), shallow-merge
the source, then run the copy phase twice — once against
`[config_org, config]` and once against `[config_final, {}]` (the
empty dict is a fresh object). -/
def mergeSources (pyExec : String → V → V) : List V → V → Nat → Except Err (V × Nat)
  | [], cf, c => .ok (cf, c)
  | src :: rest, cf, c =>
      let (org, c₁) := deepcopyV cf c
      match updTop cf src with
      | .error e => .error e
      | .ok cf₁ =>
          match runPhase0 [org, src] cf₁ c₁ with
          | .error e => .error e
          | .ok (cf₂, c₂) =>
              match runPhase0 [cf₂, .dict c₂ .nil] cf₂ (c₂ + 1) with
              | .error e => .error e
              | .ok (cf₃, c₃) => mergeSources pyExec rest cf₃ c₃

/-- The component phase as `process_config` runs it, packaging the
final tree with the instantiation list and the id counter. -/
def finishComponents (cf : V) (c : Nat) : Except Err (V × List V × Nat) :=
  match runPhase2 cf c with
  | .error e => .error e
  | .ok (cf₂, st) => .ok (cf₂, st.comps, st.cnt)

/-- Model of `process_config(*configs)`: start from a fresh empty dict, merge
the sources one at a time interleaved with the copy phase, then run
the python phase once and the component phase once, and return the
final tree together with the instantiation list and the id counter.
`_initialize_logging` only performs external logging setup and leaves
the tree unchanged. -/
def processConfig (srcs : List V) (pyExec : String → V → V) (c : Nat) :
    Except Err (V × List V × Nat) :=
  match mergeSources pyExec srcs (.dict c .nil) (c + 1) with
  | .error e => .error e
  | .ok (cf, c₁) =>
      match runPhase1 pyExec cf with
      | .error e => .error e
      | .ok cf₁ => finishComponents cf₁ c₁

/-! ## Singleton config store (`_config`, `get_config`,
`initialize_config`) -/

/-- The process-wide `_config` object: its contents and its
`initialized` flag (spelled `inited` here). -/
structure Store : Type where
  inited : Bool
  data : V
deriving Repr

/-- Merge keyword overrides into the store (`_config.update(extra)`). -/
def updStore (d : V) (extra : Entries) : V :=
  match d with
  | .dict i es => .dict i (es.update extra)
  | v => v

/-- Sequence the per-file loads: `open(fname)` + `eval` of each
configuration file in order, each of which may raise; the first
failure aborts before `process_config` is reached. -/
def seqLoads : List (Except Err V) → Except Err (List V)
  | [] => .ok []
  | x :: xs =>
      match x with
      | .error e => .error e
      | .ok v =>
          match seqLoads xs with
          | .error e => .error e
          | .ok vs => .ok (v :: vs)

/-- Model of `_get_config(**extra)` (and `get_config`, which only wraps it in
the process lock): when the store is not yet marked, merge the extra
overrides, set the flag — *before* any source is read — then, if the
environment names config files, load them all and run
`process_config(_config, *configs)`, merging its result back into the
store.  The returned pair is the store state after the call and the
call's outcome (an `Err` models the exception propagating to the
caller).  `env = none` models an unset `PALLADIUM_CONFIG`; the list
entries model the `eval` of each file, which may itself raise. -/
def getConfigModel (st : Store) (extra : Entries)
    (env : Option (List (Except Err V))) (pyExec : String → V → V) (c : Nat) :
    Store × Except Err V :=
  if st.inited then (st, .ok st.data)
  else
    let d₁ := updStore st.data extra
    let st₁ : Store := ⟨true, d₁⟩
    match env with
    | none => (st₁, .ok d₁)
    | some loads =>
        match seqLoads loads with
        | .error e => (st₁, .error e)
        | .ok srcs =>
            match processConfig (d₁ :: srcs) pyExec c with
            | .error e => (st₁, .error e)
            | .ok (tree, _, _) =>
                match tree with
                | .dict _ tes =>
                    let d₂ := updStore d₁ tes
                    (⟨true, d₂⟩, .ok d₂)
                | _ => (st₁, .error (.typeError "update requires dicts"))

/-- Model of `initialize_config(**extra)`: raise `RuntimeError` when the store
is already marked, otherwise behave exactly like `get_config`. -/
def initConfigModel (st : Store) (extra : Entries)
    (env : Option (List (Except Err V))) (pyExec : String → V → V) (c : Nat) :
    Store × Except Err V :=
  if st.inited then
    (st, .error (.runtimeError "Configuration was already initialized"))
  else getConfigModel st extra env pyExec c

/-! ## Metatheory: directive-free subtrees are left untouched by a
walk -/

mutual

/-- Values with no dict bearing key `K` anywhere (including at the
top). -/
def cleanV (K : String) : V → Bool
  | .dict _ es => !(es.hasKey K) && cleanE K es
  | .list _ xs => cleanI K xs
  | .tup xs => cleanI K xs
  | .comp _ _ kw => cleanE K kw
  | _ => true

/-- Entries all of whose values are clean. -/
def cleanE (K : String) : Entries → Bool
  | .nil => true
  | .cons _ v rest => cleanV K v && cleanE K rest

/-- Items all of which are clean. -/
def cleanI (K : String) : Items → Bool
  | .nil => true
  | .cons v rest => cleanV K v && cleanI K rest

end

mutual

/-- A walk leaves a `K`-free value untouched (and calls no handler). -/
theorem walkV_noop {σ : Type} (K : String) (h : Handler σ) (v : V) (st : σ)
    (hc : cleanV K v = true) : walkV K h v st = .ok (v, st) := by
  match v with
  | .dict i es =>
      rw [cleanV] at hc
      simp only [Bool.and_eq_true, Bool.not_eq_true'] at hc
      rw [walkV, walkE_noop K h es st hc.2]
  | .list i xs =>
      rw [cleanV] at hc
      rw [walkV, walkI_noop K h false 0 xs st hc]
  | .tup xs =>
      rw [cleanV] at hc
      rw [walkV, walkI_noop K h true 0 xs st hc]
  | .s x => simp [walkV]
  | .i x => simp [walkV]
  | .b x => simp [walkV]
  | .null => simp [walkV]
  | .comp a b c => simp [walkV]

/-- A walk leaves `K`-free entries untouched. -/
theorem walkE_noop {σ : Type} (K : String) (h : Handler σ) (es : Entries) (st : σ)
    (hc : cleanE K es = true) : walkE K h es st = .ok (es, st) := by
  match es with
  | .nil => rw [walkE]
  | .cons k v rest =>
      rw [cleanE, Bool.and_eq_true] at hc
      have hv := walkV_noop K h v st hc.1
      have hr := walkE_noop K h rest st hc.2
      match v with
      | .dict i ves =>
          have hk : Entries.hasKey ves K = false := by
            have := hc.1; rw [cleanV] at this
            simp only [Bool.and_eq_true, Bool.not_eq_true'] at this
            exact this.1
          rw [walkE, hv]
          simp [keyIn, hk, hr]
      | .list i xs => rw [walkE, hv]; simp [hr]
      | .tup xs => rw [walkE, hv]; simp [hr]
      | .s x => simp [walkE, hr]
      | .i x => simp [walkE, hr]
      | .b x => simp [walkE, hr]
      | .null => simp [walkE, hr]
      | .comp a b c => simp [walkE, hr]

/-- A walk leaves `K`-free items untouched. -/
theorem walkI_noop {σ : Type} (K : String) (h : Handler σ) (isTup : Bool) (idx : Nat)
    (xs : Items) (st : σ)
    (hc : cleanI K xs = true) : walkI K h isTup idx xs st = .ok (xs, st) := by
  match xs with
  | .nil => rw [walkI]
  | .cons v rest =>
      rw [cleanI, Bool.and_eq_true] at hc
      have hv := walkV_noop K h v st hc.1
      have hr := walkI_noop K h isTup (idx + 1) rest st hc.2
      match v with
      | .dict i ves =>
          have hk : Entries.hasKey ves K = false := by
            have := hc.1; rw [cleanV] at this
            simp only [Bool.and_eq_true, Bool.not_eq_true'] at this
            exact this.1
          rw [walkI, hv]
          simp [keyIn, hk, hr]
      | .list i ys => rw [walkI, hv]; simp [hr]
      | .tup ys => rw [walkI, hv]; simp [hr]
      | .s x => simp [walkI, hr]
      | .i x => simp [walkI, hr]
      | .b x => simp [walkI, hr]
      | .null => simp [walkI, hr]
      | .comp a b c => simp [walkI, hr]

end



/-! ## Metatheory: dictionary laws -/

namespace Entries

/-- No key occurs twice (every Python dict satisfies this). -/
def keysNodup : Entries → Bool
  | .nil => true
  | .cons k _ rest => !(rest.hasKey k) && rest.keysNodup

theorem hasKey_false_get (es : Entries) (k : String) (h : es.hasKey k = false) :
    es.get k = none := by
  match es with
  | .nil => rfl
  | .cons k0 v rest =>
      rw [hasKey] at h
      rw [get]
      split at h
      · simp at h
      · next hne => simp [hne, hasKey_false_get rest k h]

theorem get_some_hasKey {es : Entries} {k : String} {v : V} (h : es.get k = some v) :
    es.hasKey k = true := by
  by_contra hc
  simp only [Bool.not_eq_true] at hc
  rw [hasKey_false_get es k hc] at h
  exact Option.noConfusion h

theorem get_set (es : Entries) (k : String) (v : V) (k' : String) :
    (es.set k v).get k' = if k' = k then some v else es.get k' := by
  match es with
  | .nil =>
      simp only [set, get]
      by_cases h : k = k'
      · simp [h]
      · simp [h, Ne.symm h]
  | .cons k0 w rest =>
      rw [set]
      by_cases h0 : k0 = k
      · rw [if_pos h0, get, get]
        by_cases h1 : k0 = k'
        · have : k' = k := h1 ▸ h0
          simp [h1, this]
        · have : ¬k' = k := fun hh => h1 (h0 ▸ hh.symm)
          simp [h1, this]
      · rw [if_neg h0, get, get, get_set rest k v k']
        by_cases h1 : k0 = k'
        · have hk : ¬k' = k := fun hh => h0 (h1.trans hh)
          simp [h1, hk]
        · simp [h1]

theorem hasKey_set (es : Entries) (k : String) (v : V) (k' : String) :
    (es.set k v).hasKey k' = (es.hasKey k' || decide (k = k')) := by
  match es with
  | .nil =>
      simp only [set, hasKey]
      by_cases h : k = k' <;> simp [h]
  | .cons k0 w rest =>
      rw [set]
      by_cases h0 : k0 = k
      · rw [if_pos h0, hasKey, hasKey]
        by_cases h1 : k0 = k'
        · have : k = k' := h0 ▸ h1
          simp [h1, this]
        · have : ¬k = k' := fun hh => h1 (h0.symm ▸ hh ▸ rfl)
          simp [h1, this]
      · rw [if_neg h0, hasKey, hasKey, hasKey_set rest k v k']
        by_cases h1 : k0 = k' <;> simp [h1, Bool.or_assoc]

theorem hasKey_update (es fs : Entries) (k : String) :
    (es.update fs).hasKey k = (es.hasKey k || fs.hasKey k) := by
  match fs with
  | .nil => rw [update, hasKey]; simp
  | .cons k0 v rest =>
      rw [update, hasKey_update (es.set k0 v) rest k, hasKey_set, hasKey]
      by_cases h : k0 = k <;> simp [h, Bool.or_assoc]

theorem get_update_not_mem (es : Entries) {fs : Entries} {k : String}
    (h : fs.hasKey k = false) : (es.update fs).get k = es.get k := by
  match fs with
  | .nil => rw [update]
  | .cons k0 v rest =>
      rw [hasKey] at h
      split at h
      · simp at h
      · next hne =>
          rw [update, get_update_not_mem (es.set k0 v) h, get_set]
          have : ¬k = k0 := fun hh => hne hh.symm
          simp [this]

theorem get_update_mem (es : Entries) {fs : Entries} {k : String} {v : V}
    (hnd : fs.keysNodup = true) (h : fs.get k = some v) :
    (es.update fs).get k = some v := by
  match fs with
  | .nil => simp [get] at h
  | .cons k0 w rest =>
      rw [keysNodup, Bool.and_eq_true, Bool.not_eq_true'] at hnd
      rw [get] at h
      rw [update]
      by_cases he : k0 = k
      · rw [if_pos he] at h
        injection h with hw
        rw [get_update_not_mem (es.set k0 w) (he ▸ hnd.1), get_set, if_pos he.symm, hw]
      · rw [if_neg he] at h
        exact get_update_mem (es.set k0 w) hnd.2 h

theorem get_erase_ne {es : Entries} {k k0 : String} (h : k ≠ k0) :
    (es.erase k0).get k = es.get k := by
  match es with
  | .nil => rfl
  | .cons k1 v rest =>
      rw [erase]
      by_cases he : k1 = k0
      · rw [if_pos he, get, if_neg (fun hh => h (hh.symm.trans he))]
      · rw [if_neg he, get, get, @get_erase_ne rest k k0 h]

theorem hasKey_erase_ne {es : Entries} {k k0 : String} (h : k ≠ k0) :
    (es.erase k0).hasKey k = es.hasKey k := by
  match es with
  | .nil => rfl
  | .cons k1 v rest =>
      rw [erase]
      by_cases he : k1 = k0
      · rw [if_pos he, hasKey, if_neg (fun hh => h (hh.symm.trans he))]
      · rw [if_neg he, hasKey, hasKey, @hasKey_erase_ne rest k k0 h]

theorem hasKey_erase_self {es : Entries} {k : String} (hnd : es.keysNodup = true) :
    (es.erase k).hasKey k = false := by
  match es with
  | .nil => rfl
  | .cons k1 v rest =>
      rw [keysNodup, Bool.and_eq_true, Bool.not_eq_true'] at hnd
      rw [erase]
      by_cases he : k1 = k
      · rw [if_pos he, ← he]
        exact hnd.1
      · rw [if_neg he, hasKey, if_neg he]
        exact @hasKey_erase_self rest k hnd.2

theorem length_pos_of_get {es : Entries} {k : String} {v : V} (h : es.get k = some v) :
    es.length > 0 := by
  match es with
  | .nil => simp [get] at h
  | .cons a b c => rw [length]; omega

theorem length_pos_of_two {es : Entries} {k k' : String} {v v' : V}
    (h : es.get k = some v) (h' : es.get k' = some v') (hne : k ≠ k') :
    es.length > 1 := by
  match es with
  | .nil => simp [get] at h
  | .cons k0 w rest =>
      rw [get] at h h'
      rw [length]
      by_cases h1 : k0 = k
      · by_cases h2 : k0 = k'
        · exact absurd (h1.symm.trans h2) hne
        · rw [if_neg h2] at h'
          have := length_pos_of_get h'
          omega
      · rw [if_neg h1] at h
        have := length_pos_of_get h
        omega

end Entries

/-! ## Metatheory: path resolution and deep copies -/

theorem lookupParts_miss_mem {v : V} {parts : List String} {k : String}
    (h : lookupParts v parts = .miss k) : k ∈ parts := by
  match v, parts with
  | v, [] => simp [lookupParts] at h
  | .dict i es, p :: ps =>
      rw [lookupParts] at h
      cases hg : es.get p with
      | some w =>
          rw [hg] at h
          exact List.mem_cons_of_mem _ (@lookupParts_miss_mem w ps k h)
      | none =>
          rw [hg] at h
          cases h
          exact List.mem_cons_self _ _
  | .s x, p :: ps => simp [lookupParts] at h
  | .i x, p :: ps => simp [lookupParts] at h
  | .b x, p :: ps => simp [lookupParts] at h
  | .null, p :: ps => simp [lookupParts] at h
  | .list a b, p :: ps => simp [lookupParts] at h
  | .tup a, p :: ps => simp [lookupParts] at h
  | .comp a b c, p :: ps => simp [lookupParts] at h

theorem resolveGo_all_miss {path : String} {parts : List String} {l : List V}
    (h : ∀ c ∈ l, ∃ k, lookupParts c parts = .miss k) :
    resolveGo path parts l = .error (.keyError path) := by
  match l with
  | [] => rfl
  | c :: rest =>
      obtain ⟨k, hk⟩ := h c (List.mem_cons_self c rest)
      rw [resolveGo, hk]
      exact resolveGo_all_miss (fun d hd => h d (List.mem_cons_of_mem _ hd))

theorem resolveCfgs_all_miss {cs : List V} {path : String} {parts : List String}
    (h : ∀ c ∈ cs, ∃ k, lookupParts c parts = .miss k) :
    resolveCfgs cs path parts = .error (.keyError path) :=
  resolveGo_all_miss (fun c hc => h c (List.mem_reverse.mp hc))

theorem lastOne_mem {cs : List V} {c : V} (h : c ∈ lastOne cs) : c ∈ cs := by
  unfold lastOne at h
  cases hg : cs.getLast? with
  | none => rw [hg] at h; simp at h
  | some d =>
      rw [hg] at h
      simp only [List.mem_singleton] at h
      have hmem : d ∈ cs.getLast? := by rw [hg]; rfl
      obtain ⟨hne, he⟩ := List.mem_getLast?_eq_getLast hmem
      rw [h, he]
      exact List.getLast_mem hne

theorem deepcopyE_hasKey (es : Entries) (c : Nat) (k : String) :
    ((deepcopyE es c).1).hasKey k = es.hasKey k := by
  match es with
  | .nil => rfl
  | .cons k0 v rest =>
      rw [deepcopyE]
      cases hv : deepcopyV v c with
      | mk v1 c1 =>
          cases hr : deepcopyE rest c1 with
          | mk r1 c2 =>
              have ih := deepcopyE_hasKey rest c1 k
              rw [hr] at ih
              simp only [hv, hr]
              rw [Entries.hasKey, Entries.hasKey, ih]

theorem deepcopyE_get_s (es : Entries) (c : Nat) {k f : String}
    (h : es.get k = some (.s f)) : ((deepcopyE es c).1).get k = some (.s f) := by
  match es with
  | .nil => simp [Entries.get] at h
  | .cons k0 v rest =>
      rw [Entries.get] at h
      rw [deepcopyE]
      cases hv : deepcopyV v c with
      | mk v1 c1 =>
          cases hr : deepcopyE rest c1 with
          | mk r1 c2 =>
              simp only [hv, hr]
              rw [Entries.get]
              by_cases he : k0 = k
              · rw [if_pos he] at h ⊢
                injection h with h
                subst h
                simp only [deepcopyV] at hv
                injection hv with h1 h2
                rw [← h1]
              · rw [if_neg he] at h ⊢
                have ih := deepcopyE_get_s rest c1 h
                rw [hr] at ih
                exact ih

theorem deepcopyE_keysNodup (es : Entries) (c : Nat) :
    ((deepcopyE es c).1).keysNodup = es.keysNodup := by
  match es with
  | .nil => rfl
  | .cons k0 v rest =>
      rw [deepcopyE]
      cases hv : deepcopyV v c with
      | mk v1 c1 =>
          cases hr : deepcopyE rest c1 with
          | mk r1 c2 =>
              have ih := deepcopyE_keysNodup rest c1
              have ihk := deepcopyE_hasKey rest c1 k0
              rw [hr] at ih ihk
              simp only [hv, hr]
              rw [Entries.keysNodup, Entries.keysNodup, ih, ihk]

/-! ## Metatheory: cleanliness under dictionary operations -/

theorem get_of_cleanE {K : String} {es : Entries} {k : String} {v : V}
    (hc : cleanE K es = true) (h : es.get k = some v) : cleanV K v = true := by
  match es with
  | .nil => simp [Entries.get] at h
  | .cons k0 w rest =>
      rw [cleanE, Bool.and_eq_true] at hc
      rw [Entries.get] at h
      split at h
      · injection h with h; rw [← h]; exact hc.1
      · exact get_of_cleanE hc.2 h

theorem cleanE_set {K : String} {es : Entries} {k : String} {v : V}
    (hc : cleanE K es = true) (hv : cleanV K v = true) :
    cleanE K (es.set k v) = true := by
  match es with
  | .nil => simp [Entries.set, cleanE, hv]
  | .cons k0 w rest =>
      rw [cleanE, Bool.and_eq_true] at hc
      rw [Entries.set]
      split
      · rw [cleanE, Bool.and_eq_true]; exact ⟨hv, hc.2⟩
      · rw [cleanE, Bool.and_eq_true]
        exact ⟨hc.1, cleanE_set hc.2 hv⟩

theorem cleanE_update {K : String} {es fs : Entries}
    (hc : cleanE K es = true) (hf : cleanE K fs = true) :
    cleanE K (es.update fs) = true := by
  match fs with
  | .nil => rw [Entries.update]; exact hc
  | .cons k0 v rest =>
      rw [cleanE, Bool.and_eq_true] at hf
      rw [Entries.update]
      exact cleanE_update (cleanE_set hc hf.1) hf.2

theorem cleanE_erase {K : String} {es : Entries} {k : String}
    (hc : cleanE K es = true) : cleanE K (es.erase k) = true := by
  match es with
  | .nil => rfl
  | .cons k0 w rest =>
      rw [cleanE, Bool.and_eq_true] at hc
      rw [Entries.erase]
      split
      · exact hc.2
      · rw [cleanE, Bool.and_eq_true]
        exact ⟨hc.1, cleanE_erase hc.2⟩

theorem cleanE_append {K : String} {es fs : Entries}
    (hc : cleanE K es = true) (hf : cleanE K fs = true) :
    cleanE K (es.append fs) = true := by
  match es with
  | .nil => rw [Entries.append]; exact hf
  | .cons k0 w rest =>
      rw [cleanE, Bool.and_eq_true] at hc
      rw [Entries.append, cleanE, Bool.and_eq_true]
      exact ⟨hc.1, cleanE_append hc.2 hf⟩

theorem get_append_not_mem {es fs : Entries} {k : String}
    (h : es.hasKey k = false) : (es.append fs).get k = fs.get k := by
  match es with
  | .nil => rw [Entries.append]
  | .cons k0 w rest =>
      rw [Entries.hasKey] at h
      split at h
      · simp at h
      · next hne =>
          rw [Entries.append, Entries.get, if_neg hne]
          exact get_append_not_mem h

theorem set_fresh_append {es : Entries} {k : String} {v : V}
    (h : es.hasKey k = false) : es.set k v = es.append (.cons k v .nil) := by
  match es with
  | .nil => rfl
  | .cons k0 w rest =>
      rw [Entries.hasKey] at h
      split at h
      · simp at h
      · next hne =>
          rw [Entries.set, if_neg hne, Entries.append, set_fresh_append h]

/-- Top-exempt cleanliness: every *proper* subvalue is free of dicts
bearing key `K` (the value itself may carry the key at its top
level). -/
def cleanTopV (K : String) : V → Bool
  | .dict _ es => cleanE K es
  | .list _ xs => cleanI K xs
  | .tup xs => cleanI K xs
  | .comp _ _ kw => cleanE K kw
  | _ => true

theorem cleanTopV_of_cleanV {K : String} {v : V} (h : cleanV K v = true) :
    cleanTopV K v = true := by
  match v with
  | .dict i es => rw [cleanV, Bool.and_eq_true] at h; rw [cleanTopV]; exact h.2
  | .list i xs => rw [cleanV] at h; rw [cleanTopV]; exact h
  | .tup xs => rw [cleanV] at h; rw [cleanTopV]; exact h
  | .comp a b c => rw [cleanV] at h; rw [cleanTopV]; exact h
  | .s x => rfl
  | .i x => rfl
  | .b x => rfl
  | .null => rfl

theorem keyIn_false_of_cleanV {K : String} {v : V} (h : cleanV K v = true) :
    keyIn v K = false := by
  match v with
  | .dict i es =>
      rw [cleanV, Bool.and_eq_true, Bool.not_eq_true'] at h
      rw [keyIn]; exact h.1
  | .list i xs => rfl
  | .tup xs => rfl
  | .comp a b c => rfl
  | .s x => rfl
  | .i x => rfl
  | .b x => rfl
  | .null => rfl

mutual

/-- Trees containing no instantiated component (all configuration
input trees are of this shape). -/
def compFreeV : V → Bool
  | .dict _ es => compFreeE es
  | .list _ xs => compFreeI xs
  | .tup xs => compFreeI xs
  | .comp _ _ _ => false
  | _ => true

/-- Component-free entries. -/
def compFreeE : Entries → Bool
  | .nil => true
  | .cons _ v rest => compFreeV v && compFreeE rest

/-- Component-free items. -/
def compFreeI : Items → Bool
  | .nil => true
  | .cons v rest => compFreeV v && compFreeI rest

end

theorem walkV_dict_shape {σ : Type} {K : String} {h : Handler σ} {j : Nat} {ves : Entries}
    {st : σ} {out : V × σ} (hw : walkV K h (.dict j ves) st = .ok out) :
    ∃ ves1, out.1 = .dict j ves1 ∧ walkE K h ves st = .ok (ves1, out.2) := by
  rw [walkV] at hw
  cases hwe : walkE K h ves st with
  | error e => rw [hwe] at hw; exact Except.noConfusion hw
  | ok p =>
      obtain ⟨a, st1⟩ := p
      rw [hwe] at hw
      injection hw with hw
      exact ⟨a, by rw [← hw], by rw [← hw]⟩

theorem walkV_list_shape {σ : Type} {K : String} {h : Handler σ} {j : Nat} {xs : Items}
    {st : σ} {out : V × σ} (hw : walkV K h (.list j xs) st = .ok out) :
    ∃ ys, out.1 = .list j ys ∧ walkI K h false 0 xs st = .ok (ys, out.2) := by
  rw [walkV] at hw
  cases hwe : walkI K h false 0 xs st with
  | error e => rw [hwe] at hw; exact Except.noConfusion hw
  | ok p =>
      obtain ⟨a, st1⟩ := p
      rw [hwe] at hw
      injection hw with hw
      exact ⟨a, by rw [← hw], by rw [← hw]⟩

theorem walkV_tup_shape {σ : Type} {K : String} {h : Handler σ} {xs : Items}
    {st : σ} {out : V × σ} (hw : walkV K h (.tup xs) st = .ok out) :
    ∃ ys, out.1 = .tup ys ∧ walkI K h true 0 xs st = .ok (ys, out.2) := by
  rw [walkV] at hw
  cases hwe : walkI K h true 0 xs st with
  | error e => rw [hwe] at hw; exact Except.noConfusion hw
  | ok p =>
      obtain ⟨a, st1⟩ := p
      rw [hwe] at hw
      injection hw with hw
      exact ⟨a, by rw [← hw], by rw [← hw]⟩

/-- Effect of a successful `ComponentHandler.__call__`. -/
theorem compCall_ok {name : String} {i : Nat} {es : Entries} {st : CompSt}
    {out : V × CompSt} (h : compCall name (.dict i es) st = .ok out) :
    ∃ f, es.get "__factory__" = some (.s f) ∧
      out.1 = V.comp st.cnt f (es.erase "__factory__") ∧
      out.2 = ⟨st.cnt + 1, st.comps ++ [out.1]⟩ := by
  rw [compCall] at h
  cases hg : es.get "__factory__" with
  | none => rw [hg] at h; exact Except.noConfusion h
  | some w =>
      rw [hg] at h
      match w with
      | .s f =>
          injection h with h
          refine ⟨f, rfl, ?_, ?_⟩
          · rw [← h]
          · rw [← h]
      | .i x => exact Except.noConfusion h
      | .b x => exact Except.noConfusion h
      | .null => exact Except.noConfusion h
      | .dict a b => exact Except.noConfusion h
      | .list a b => exact Except.noConfusion h
      | .tup a => exact Except.noConfusion h
      | .comp a b c => exact Except.noConfusion h

mutual

/-- Invariant of the component-phase walk, value form: the walked
value has no `__factory__`-bearing dict strictly inside it, and every
recorded component either predates the walk or has keyword arguments
free of `__factory__`-bearing dicts. -/
theorem walkFacV_clean (v : V) (st : CompSt) (out : V × CompSt)
    (hf : compFreeV v = true)
    (h : walkV "__factory__" compCall v st = .ok out) :
    cleanTopV "__factory__" out.1 = true ∧
      ∀ c ∈ out.2.comps, c ∈ st.comps ∨ cleanTopV "__factory__" c = true := by
  match v with
  | .dict j ves =>
      obtain ⟨ves1, hsh, hwe⟩ := walkV_dict_shape h
      rw [compFreeV] at hf
      have ih := walkFacE_clean ves st ves1 out.2 hf hwe
      exact ⟨by rw [hsh, cleanTopV]; exact ih.1, ih.2⟩
  | .list j xs =>
      obtain ⟨ys, hsh, hwi⟩ := walkV_list_shape h
      rw [compFreeV] at hf
      have ih := walkFacI_clean xs false 0 st ys out.2 hf hwi
      exact ⟨by rw [hsh, cleanTopV]; exact ih.1, ih.2⟩
  | .tup xs =>
      obtain ⟨ys, hsh, hwi⟩ := walkV_tup_shape h
      rw [compFreeV] at hf
      have ih := walkFacI_clean xs true 0 st ys out.2 hf hwi
      exact ⟨by rw [hsh, cleanTopV]; exact ih.1, ih.2⟩
  | .s x =>
      have hn := walkV_noop "__factory__" compCall (V.s x) st rfl
      rw [hn] at h
      injection h with h
      rw [← h]
      exact ⟨rfl, fun c hc => Or.inl hc⟩
  | .i x =>
      have hn := walkV_noop "__factory__" compCall (V.i x) st rfl
      rw [hn] at h
      injection h with h
      rw [← h]
      exact ⟨rfl, fun c hc => Or.inl hc⟩
  | .b x =>
      have hn := walkV_noop "__factory__" compCall (V.b x) st rfl
      rw [hn] at h
      injection h with h
      rw [← h]
      exact ⟨rfl, fun c hc => Or.inl hc⟩
  | .null =>
      have hn := walkV_noop "__factory__" compCall V.null st rfl
      rw [hn] at h
      injection h with h
      rw [← h]
      exact ⟨rfl, fun c hc => Or.inl hc⟩
  | .comp a b c => simp [compFreeV] at hf

/-- Invariant of the component-phase walk, entry form. -/
theorem walkFacE_clean (es : Entries) (st : CompSt) (a : Entries) (st' : CompSt)
    (hf : compFreeE es = true)
    (h : walkE "__factory__" compCall es st = .ok (a, st')) :
    cleanE "__factory__" a = true ∧
      ∀ c ∈ st'.comps, c ∈ st.comps ∨ cleanTopV "__factory__" c = true := by
  match es with
  | .nil =>
      rw [walkE] at h
      injection h with h
      injection h with h1 h2
      subst h1; subst h2
      exact ⟨rfl, fun c hc => Or.inl hc⟩
  | .cons k v rest =>
      rw [compFreeE, Bool.and_eq_true] at hf
      match v with
      | .dict j ves =>
          rw [walkE] at h
          cases hwv : walkV "__factory__" compCall (V.dict j ves) st with
          | error e => rw [hwv] at h; exact Except.noConfusion h
          | ok p =>
              obtain ⟨v₁, st₁⟩ := p
              rw [hwv] at h
              dsimp only at h
              have ihv := walkFacV_clean (V.dict j ves) st (v₁, st₁) hf.1 hwv
              obtain ⟨ves1, hsh, -⟩ := walkV_dict_shape hwv
              simp only at hsh
              subst hsh
              simp only [keyIn] at h
              by_cases hk : Entries.hasKey ves1 "__factory__" = true
              · rw [if_pos hk] at h
                cases hcc : compCall k (V.dict j ves1) st₁ with
                | error e => rw [hcc] at h; exact Except.noConfusion h
                | ok q =>
                    obtain ⟨v₂, st₂⟩ := q
                    rw [hcc] at h
                    dsimp only at h
                    cases hwr : walkE "__factory__" compCall rest st₂ with
                    | error e => rw [hwr] at h; exact Except.noConfusion h
                    | ok r =>
                        obtain ⟨rest1, st₃⟩ := r
                        rw [hwr] at h
                        dsimp only at h
                        injection h with h
                        injection h with h1 h2
                        subst h1; subst h2
                        obtain ⟨f, hg, hv2, hst2⟩ := compCall_ok hcc
                        simp only at hv2 hst2
                        have ihr := walkFacE_clean rest st₂ rest1 st₃ hf.2 hwr
                        have hv2clean : cleanTopV "__factory__" v₂ = true := by
                          rw [hv2, cleanTopV]
                          exact cleanE_erase (by rw [cleanTopV] at ihv; exact ihv.1)
                        constructor
                        · rw [cleanE, Bool.and_eq_true]
                          refine ⟨?_, ihr.1⟩
                          rw [hv2, cleanV]
                          exact cleanE_erase (by rw [cleanTopV] at ihv; exact ihv.1)
                        · intro c hc
                          rcases ihr.2 c hc with hmem | hcl
                          · rw [hst2] at hmem
                            simp only [List.mem_append, List.mem_singleton] at hmem
                            rcases hmem with hmem | rfl
                            · exact ihv.2 c hmem
                            · exact Or.inr hv2clean
                          · exact Or.inr hcl
              · rw [if_neg hk] at h
                cases hwr : walkE "__factory__" compCall rest st₁ with
                | error e => rw [hwr] at h; exact Except.noConfusion h
                | ok r =>
                    obtain ⟨rest1, st₃⟩ := r
                    rw [hwr] at h
                    dsimp only at h
                    injection h with h
                    injection h with h1 h2
                    subst h1; subst h2
                    have ihr := walkFacE_clean rest st₁ rest1 st₃ hf.2 hwr
                    constructor
                    · rw [cleanE, Bool.and_eq_true]
                      refine ⟨?_, ihr.1⟩
                      rw [cleanV]
                      simp only [Bool.not_eq_true] at hk
                      rw [Bool.and_eq_true, Bool.not_eq_true']
                      exact ⟨hk, by rw [cleanTopV] at ihv; exact ihv.1⟩
                    · intro c hc
                      rcases ihr.2 c hc with hmem | hcl
                      · exact ihv.2 c hmem
                      · exact Or.inr hcl
      | .list j xs =>
          rw [walkE] at h
          cases hwv : walkV "__factory__" compCall (V.list j xs) st with
          | error e => rw [hwv] at h; exact Except.noConfusion h
          | ok p =>
              obtain ⟨v₁, st₁⟩ := p
              rw [hwv] at h
              dsimp only at h
              have ihv := walkFacV_clean (V.list j xs) st (v₁, st₁) hf.1 hwv
              obtain ⟨ys, hsh, -⟩ := walkV_list_shape hwv
              simp only at hsh
              subst hsh
              cases hwr : walkE "__factory__" compCall rest st₁ with
              | error e => rw [hwr] at h; exact Except.noConfusion h
              | ok r =>
                  obtain ⟨rest1, st₃⟩ := r
                  rw [hwr] at h
                  dsimp only at h
                  injection h with h
                  injection h with h1 h2
                  subst h1; subst h2
                  have ihr := walkFacE_clean rest st₁ rest1 st₃ hf.2 hwr
                  constructor
                  · rw [cleanE, Bool.and_eq_true]
                    refine ⟨?_, ihr.1⟩
                    rw [cleanV]
                    rw [cleanTopV] at ihv
                    exact ihv.1
                  · intro c hc
                    rcases ihr.2 c hc with hmem | hcl
                    · exact ihv.2 c hmem
                    · exact Or.inr hcl
      | .tup xs =>
          rw [walkE] at h
          cases hwv : walkV "__factory__" compCall (V.tup xs) st with
          | error e => rw [hwv] at h; exact Except.noConfusion h
          | ok p =>
              obtain ⟨v₁, st₁⟩ := p
              rw [hwv] at h
              dsimp only at h
              have ihv := walkFacV_clean (V.tup xs) st (v₁, st₁) hf.1 hwv
              obtain ⟨ys, hsh, -⟩ := walkV_tup_shape hwv
              simp only at hsh
              subst hsh
              cases hwr : walkE "__factory__" compCall rest st₁ with
              | error e => rw [hwr] at h; exact Except.noConfusion h
              | ok r =>
                  obtain ⟨rest1, st₃⟩ := r
                  rw [hwr] at h
                  dsimp only at h
                  injection h with h
                  injection h with h1 h2
                  subst h1; subst h2
                  have ihr := walkFacE_clean rest st₁ rest1 st₃ hf.2 hwr
                  constructor
                  · rw [cleanE, Bool.and_eq_true]
                    refine ⟨?_, ihr.1⟩
                    rw [cleanV]
                    rw [cleanTopV] at ihv
                    exact ihv.1
                  · intro c hc
                    rcases ihr.2 c hc with hmem | hcl
                    · exact ihv.2 c hmem
                    · exact Or.inr hcl
      | .s x =>
          simp only [walkE] at h
          cases hwr : walkE "__factory__" compCall rest st with
          | error e => rw [hwr] at h; exact Except.noConfusion h
          | ok r =>
              obtain ⟨rest1, st₃⟩ := r
              rw [hwr] at h
              dsimp only at h
              injection h with h
              injection h with h1 h2
              subst h1; subst h2
              have ihr := walkFacE_clean rest st rest1 st₃ hf.2 hwr
              exact ⟨by rw [cleanE, Bool.and_eq_true]; exact ⟨rfl, ihr.1⟩, ihr.2⟩
      | .i x =>
          simp only [walkE] at h
          cases hwr : walkE "__factory__" compCall rest st with
          | error e => rw [hwr] at h; exact Except.noConfusion h
          | ok r =>
              obtain ⟨rest1, st₃⟩ := r
              rw [hwr] at h
              dsimp only at h
              injection h with h
              injection h with h1 h2
              subst h1; subst h2
              have ihr := walkFacE_clean rest st rest1 st₃ hf.2 hwr
              exact ⟨by rw [cleanE, Bool.and_eq_true]; exact ⟨rfl, ihr.1⟩, ihr.2⟩
      | .b x =>
          simp only [walkE] at h
          cases hwr : walkE "__factory__" compCall rest st with
          | error e => rw [hwr] at h; exact Except.noConfusion h
          | ok r =>
              obtain ⟨rest1, st₃⟩ := r
              rw [hwr] at h
              dsimp only at h
              injection h with h
              injection h with h1 h2
              subst h1; subst h2
              have ihr := walkFacE_clean rest st rest1 st₃ hf.2 hwr
              exact ⟨by rw [cleanE, Bool.and_eq_true]; exact ⟨rfl, ihr.1⟩, ihr.2⟩
      | .null =>
          simp only [walkE] at h
          cases hwr : walkE "__factory__" compCall rest st with
          | error e => rw [hwr] at h; exact Except.noConfusion h
          | ok r =>
              obtain ⟨rest1, st₃⟩ := r
              rw [hwr] at h
              dsimp only at h
              injection h with h
              injection h with h1 h2
              subst h1; subst h2
              have ihr := walkFacE_clean rest st rest1 st₃ hf.2 hwr
              exact ⟨by rw [cleanE, Bool.and_eq_true]; exact ⟨rfl, ihr.1⟩, ihr.2⟩
      | .comp x y z => simp [compFreeV] at hf

/-- Invariant of the component-phase walk, item form. -/
theorem walkFacI_clean (xs : Items) (isTup : Bool) (idx : Nat) (st : CompSt)
    (ys : Items) (st' : CompSt)
    (hf : compFreeI xs = true)
    (h : walkI "__factory__" compCall isTup idx xs st = .ok (ys, st')) :
    cleanI "__factory__" ys = true ∧
      ∀ c ∈ st'.comps, c ∈ st.comps ∨ cleanTopV "__factory__" c = true := by
  match xs with
  | .nil =>
      rw [walkI] at h
      injection h with h
      injection h with h1 h2
      subst h1; subst h2
      exact ⟨rfl, fun c hc => Or.inl hc⟩
  | .cons v rest =>
      rw [compFreeI, Bool.and_eq_true] at hf
      match v with
      | .dict j ves =>
          rw [walkI] at h
          cases hwv : walkV "__factory__" compCall (V.dict j ves) st with
          | error e => rw [hwv] at h; exact Except.noConfusion h
          | ok p =>
              obtain ⟨v₁, st₁⟩ := p
              rw [hwv] at h
              dsimp only at h
              have ihv := walkFacV_clean (V.dict j ves) st (v₁, st₁) hf.1 hwv
              obtain ⟨ves1, hsh, -⟩ := walkV_dict_shape hwv
              simp only at hsh
              subst hsh
              simp only [keyIn] at h
              by_cases hk : Entries.hasKey ves1 "__factory__" = true
              · rw [if_pos hk] at h
                cases hcc : compCall (toString idx) (V.dict j ves1) st₁ with
                | error e => rw [hcc] at h; exact Except.noConfusion h
                | ok q =>
                    obtain ⟨v₂, st₂⟩ := q
                    rw [hcc] at h
                    dsimp only at h
                    cases isTup with
                    | true => exact Except.noConfusion h
                    | false =>
                        rw [if_neg (by simp)] at h
                        cases hwr : walkI "__factory__" compCall false (idx + 1) rest st₂ with
                        | error e => rw [hwr] at h; exact Except.noConfusion h
                        | ok r =>
                            obtain ⟨rest1, st₃⟩ := r
                            rw [hwr] at h
                            dsimp only at h
                            injection h with h
                            injection h with h1 h2
                            subst h1; subst h2
                            obtain ⟨f, hg, hv2, hst2⟩ := compCall_ok hcc
                            simp only at hv2 hst2
                            have ihr := walkFacI_clean rest false (idx + 1) st₂ rest1 st₃ hf.2 hwr
                            have hv2clean : cleanTopV "__factory__" v₂ = true := by
                              rw [hv2, cleanTopV]
                              exact cleanE_erase (by rw [cleanTopV] at ihv; exact ihv.1)
                            constructor
                            · rw [cleanI, Bool.and_eq_true]
                              refine ⟨?_, ihr.1⟩
                              rw [hv2, cleanV]
                              exact cleanE_erase (by rw [cleanTopV] at ihv; exact ihv.1)
                            · intro c hc
                              rcases ihr.2 c hc with hmem | hcl
                              · rw [hst2] at hmem
                                simp only [List.mem_append, List.mem_singleton] at hmem
                                rcases hmem with hmem | rfl
                                · exact ihv.2 c hmem
                                · exact Or.inr hv2clean
                              · exact Or.inr hcl
              · rw [if_neg hk] at h
                cases hwr : walkI "__factory__" compCall isTup (idx + 1) rest st₁ with
                | error e => rw [hwr] at h; exact Except.noConfusion h
                | ok r =>
                    obtain ⟨rest1, st₃⟩ := r
                    rw [hwr] at h
                    dsimp only at h
                    injection h with h
                    injection h with h1 h2
                    subst h1; subst h2
                    have ihr := walkFacI_clean rest isTup (idx + 1) st₁ rest1 st₃ hf.2 hwr
                    constructor
                    · rw [cleanI, Bool.and_eq_true]
                      refine ⟨?_, ihr.1⟩
                      rw [cleanV]
                      simp only [Bool.not_eq_true] at hk
                      rw [Bool.and_eq_true, Bool.not_eq_true']
                      exact ⟨hk, by rw [cleanTopV] at ihv; exact ihv.1⟩
                    · intro c hc
                      rcases ihr.2 c hc with hmem | hcl
                      · exact ihv.2 c hmem
                      · exact Or.inr hcl
      | .list j zs =>
          rw [walkI] at h
          cases hwv : walkV "__factory__" compCall (V.list j zs) st with
          | error e => rw [hwv] at h; exact Except.noConfusion h
          | ok p =>
              obtain ⟨v₁, st₁⟩ := p
              rw [hwv] at h
              dsimp only at h
              have ihv := walkFacV_clean (V.list j zs) st (v₁, st₁) hf.1 hwv
              obtain ⟨ys2, hsh, -⟩ := walkV_list_shape hwv
              simp only at hsh
              subst hsh
              cases hwr : walkI "__factory__" compCall isTup (idx + 1) rest st₁ with
              | error e => rw [hwr] at h; exact Except.noConfusion h
              | ok r =>
                  obtain ⟨rest1, st₃⟩ := r
                  rw [hwr] at h
                  dsimp only at h
                  injection h with h
                  injection h with h1 h2
                  subst h1; subst h2
                  have ihr := walkFacI_clean rest isTup (idx + 1) st₁ rest1 st₃ hf.2 hwr
                  constructor
                  · rw [cleanI, Bool.and_eq_true]
                    refine ⟨?_, ihr.1⟩
                    rw [cleanV]
                    rw [cleanTopV] at ihv
                    exact ihv.1
                  · intro c hc
                    rcases ihr.2 c hc with hmem | hcl
                    · exact ihv.2 c hmem
                    · exact Or.inr hcl
      | .tup zs =>
          rw [walkI] at h
          cases hwv : walkV "__factory__" compCall (V.tup zs) st with
          | error e => rw [hwv] at h; exact Except.noConfusion h
          | ok p =>
              obtain ⟨v₁, st₁⟩ := p
              rw [hwv] at h
              dsimp only at h
              have ihv := walkFacV_clean (V.tup zs) st (v₁, st₁) hf.1 hwv
              obtain ⟨ys2, hsh, -⟩ := walkV_tup_shape hwv
              simp only at hsh
              subst hsh
              cases hwr : walkI "__factory__" compCall isTup (idx + 1) rest st₁ with
              | error e => rw [hwr] at h; exact Except.noConfusion h
              | ok r =>
                  obtain ⟨rest1, st₃⟩ := r
                  rw [hwr] at h
                  dsimp only at h
                  injection h with h
                  injection h with h1 h2
                  subst h1; subst h2
                  have ihr := walkFacI_clean rest isTup (idx + 1) st₁ rest1 st₃ hf.2 hwr
                  constructor
                  · rw [cleanI, Bool.and_eq_true]
                    refine ⟨?_, ihr.1⟩
                    rw [cleanV]
                    rw [cleanTopV] at ihv
                    exact ihv.1
                  · intro c hc
                    rcases ihr.2 c hc with hmem | hcl
                    · exact ihv.2 c hmem
                    · exact Or.inr hcl
      | .s x =>
          simp only [walkI] at h
          cases hwr : walkI "__factory__" compCall isTup (idx + 1) rest st with
          | error e => rw [hwr] at h; exact Except.noConfusion h
          | ok r =>
              obtain ⟨rest1, st₃⟩ := r
              rw [hwr] at h
              dsimp only at h
              injection h with h
              injection h with h1 h2
              subst h1; subst h2
              have ihr := walkFacI_clean rest isTup (idx + 1) st rest1 st₃ hf.2 hwr
              exact ⟨by rw [cleanI, Bool.and_eq_true]; exact ⟨rfl, ihr.1⟩, ihr.2⟩
      | .i x =>
          simp only [walkI] at h
          cases hwr : walkI "__factory__" compCall isTup (idx + 1) rest st with
          | error e => rw [hwr] at h; exact Except.noConfusion h
          | ok r =>
              obtain ⟨rest1, st₃⟩ := r
              rw [hwr] at h
              dsimp only at h
              injection h with h
              injection h with h1 h2
              subst h1; subst h2
              have ihr := walkFacI_clean rest isTup (idx + 1) st rest1 st₃ hf.2 hwr
              exact ⟨by rw [cleanI, Bool.and_eq_true]; exact ⟨rfl, ihr.1⟩, ihr.2⟩
      | .b x =>
          simp only [walkI] at h
          cases hwr : walkI "__factory__" compCall isTup (idx + 1) rest st with
          | error e => rw [hwr] at h; exact Except.noConfusion h
          | ok r =>
              obtain ⟨rest1, st₃⟩ := r
              rw [hwr] at h
              dsimp only at h
              injection h with h
              injection h with h1 h2
              subst h1; subst h2
              have ihr := walkFacI_clean rest isTup (idx + 1) st rest1 st₃ hf.2 hwr
              exact ⟨by rw [cleanI, Bool.and_eq_true]; exact ⟨rfl, ihr.1⟩, ihr.2⟩
      | .null =>
          simp only [walkI] at h
          cases hwr : walkI "__factory__" compCall isTup (idx + 1) rest st with
          | error e => rw [hwr] at h; exact Except.noConfusion h
          | ok r =>
              obtain ⟨rest1, st₃⟩ := r
              rw [hwr] at h
              dsimp only at h
              injection h with h
              injection h with h1 h2
              subst h1; subst h2
              have ihr := walkFacI_clean rest isTup (idx + 1) st rest1 st₃ hf.2 hwr
              exact ⟨by rw [cleanI, Bool.and_eq_true]; exact ⟨rfl, ihr.1⟩, ihr.2⟩
      | .comp x y z => simp [compFreeV] at hf

end

/-! ## Metatheory: phase drivers on clean trees -/

theorem hasKey_append (es fs : Entries) (k : String) :
    (es.append fs).hasKey k = (es.hasKey k || fs.hasKey k) := by
  match es with
  | .nil => rw [Entries.append, Entries.hasKey]; simp
  | .cons k0 v rest =>
      rw [Entries.append, Entries.hasKey, Entries.hasKey, hasKey_append rest fs k]
      by_cases h : k0 = k <;> simp [h]

theorem keysNodup_set {es : Entries} (k : String) (v : V)
    (h : es.keysNodup = true) : (es.set k v).keysNodup = true := by
  match es with
  | .nil => simp [Entries.set, Entries.keysNodup, Entries.hasKey]
  | .cons k0 w rest =>
      rw [Entries.keysNodup, Bool.and_eq_true, Bool.not_eq_true'] at h
      rw [Entries.set]
      by_cases he : k0 = k
      · rw [if_pos he, Entries.keysNodup, Bool.and_eq_true, Bool.not_eq_true']
        exact h
      · rw [if_neg he, Entries.keysNodup, Bool.and_eq_true, Bool.not_eq_true']
        constructor
        · rw [Entries.hasKey_set]
          have hne : ¬k = k0 := fun hh => he hh.symm
          simp [h.1, hne]
        · exact keysNodup_set k v h.2

theorem keysNodup_update {es fs : Entries} (h : es.keysNodup = true) :
    (es.update fs).keysNodup = true := by
  match fs with
  | .nil => rw [Entries.update]; exact h
  | .cons k0 v rest => rw [Entries.update]; exact keysNodup_update (keysNodup_set k0 v h)

/-- A copy-phase pass over a tree with no `__copy__` directive
anywhere leaves the tree and the counter unchanged. -/
theorem runPhase0_noop (cs : List V) {cf : V} (c : Nat)
    (hc : cleanV "__copy__" cf = true) : runPhase0 cs cf c = .ok (cf, c) := by
  rw [runPhase0, walkV_noop _ _ _ _ hc]
  dsimp only
  rw [keyIn_false_of_cleanV hc]
  simp

/-- When the only `__python__` directive sits at the top level of the
tree, the python phase pops it and applies the patch to the whole
tree. -/
theorem runPhase1_root (pyExec : String → V → V) {i : Nat} {es : Entries} {stmts : String}
    (hcE : cleanE "__python__" es = true)
    (hget : es.get "__python__" = some (.s stmts)) :
    runPhase1 pyExec (.dict i es) = .ok (pyExec stmts (.dict i (es.erase "__python__"))) := by
  have hw : walkV "__python__" (pyCall pyExec) (.dict i es) () = .ok (.dict i es, ()) := by
    rw [walkV, walkE_noop _ _ _ _ hcE]
  rw [runPhase1, hw]
  dsimp only
  have hki : keyIn (.dict i es) "__python__" = true := by
    rw [keyIn]; exact Entries.get_some_hasKey hget
  rw [hki]
  simp only [if_true]
  rw [pyCall, hget]

/-- Walking an append whose prefix is `K`-free just walks the
suffix. -/
theorem walkE_cleanAppend {σ : Type} (K : String) (h : Handler σ) (es₁ es₂ : Entries)
    (st : σ) (hc : cleanE K es₁ = true) :
    walkE K h (es₁.append es₂) st =
      match walkE K h es₂ st with
      | .error e => .error e
      | .ok (b, st₂) => .ok (es₁.append b, st₂) := by
  match es₁ with
  | .nil =>
      rw [Entries.append]
      cases hw : walkE K h es₂ st with
      | error e => rfl
      | ok p =>
          obtain ⟨b, st₂⟩ := p
          rfl
  | .cons k v rest =>
      rw [cleanE, Bool.and_eq_true] at hc
      rw [Entries.append]
      have hv := walkV_noop K h v st hc.1
      have ih := walkE_cleanAppend K h rest es₂ st hc.2
      match v with
      | .dict i ves =>
          have hk : Entries.hasKey ves K = false := by
            have := hc.1; rw [cleanV] at this
            simp only [Bool.and_eq_true, Bool.not_eq_true'] at this
            exact this.1
          rw [walkE, hv]
          dsimp only
          simp only [keyIn, hk]
          rw [if_neg (by simp)]
          rw [ih]
          cases hw : walkE K h es₂ st with
          | error e => rfl
          | ok p =>
              obtain ⟨b, st₂⟩ := p
              dsimp only
              rw [Entries.append]
      | .list i xs =>
          rw [walkE, hv]
          dsimp only
          rw [ih]
          cases hw : walkE K h es₂ st with
          | error e => rfl
          | ok p =>
              obtain ⟨b, st₂⟩ := p
              dsimp only
              rw [Entries.append]
      | .tup xs =>
          rw [walkE, hv]
          dsimp only
          rw [ih]
          cases hw : walkE K h es₂ st with
          | error e => rfl
          | ok p =>
              obtain ⟨b, st₂⟩ := p
              dsimp only
              rw [Entries.append]
      | .s x =>
          simp only [walkE]
          rw [ih]
          cases hw : walkE K h es₂ st with
          | error e => rfl
          | ok p =>
              obtain ⟨b, st₂⟩ := p
              dsimp only
              rw [Entries.append]
      | .i x =>
          simp only [walkE]
          rw [ih]
          cases hw : walkE K h es₂ st with
          | error e => rfl
          | ok p =>
              obtain ⟨b, st₂⟩ := p
              dsimp only
              rw [Entries.append]
      | .b x =>
          simp only [walkE]
          rw [ih]
          cases hw : walkE K h es₂ st with
          | error e => rfl
          | ok p =>
              obtain ⟨b, st₂⟩ := p
              dsimp only
              rw [Entries.append]
      | .null =>
          simp only [walkE]
          rw [ih]
          cases hw : walkE K h es₂ st with
          | error e => rfl
          | ok p =>
              obtain ⟨b, st₂⟩ := p
              dsimp only
              rw [Entries.append]
      | .comp a b2 c2 =>
          simp only [walkE]
          rw [ih]
          cases hw : walkE K h es₂ st with
          | error e => rfl
          | ok p =>
              obtain ⟨b, st₂⟩ := p
              dsimp only
              rw [Entries.append]

/-- Top-level merge of a list of dict sources (the accumulated effect
of the merge loop when no copy directive fires). -/
def mergedE : Entries → List V → Entries
  | es, [] => es
  | es, .dict _ ses :: rest => mergedE (es.update ses) rest
  | es, _ :: rest => mergedE es rest

/-- The merge loop on copy-free sources performs the shallow
top-level updates and nothing else (for some advance of the id
counter, consumed by the `config_org` deep copies). -/
theorem mergeSources_copyfree (pyExec : String → V → V) (srcs : List V) :
    ∀ (i : Nat) (es : Entries) (c : Nat),
    es.hasKey "__copy__" = false → cleanE "__copy__" es = true →
    (∀ s ∈ srcs, ∃ j ses, s = V.dict j ses ∧ ses.hasKey "__copy__" = false ∧
        cleanE "__copy__" ses = true) →
    ∃ c', mergeSources pyExec srcs (.dict i es) c = .ok (.dict i (mergedE es srcs), c') := by
  match srcs with
  | [] =>
      intro i es c _ _ _
      exact ⟨c, rfl⟩
  | src :: rest =>
      intro i es c hk hcl hs
      obtain ⟨j, ses, rfl, hks, hcls⟩ := hs src (List.mem_cons_self src rest)
      rw [mergeSources]
      cases hdc : deepcopyV (.dict i es) c with
      | mk org c₁ =>
          dsimp only
          rw [updTop]
          dsimp only
          have hcl₁ : cleanV "__copy__" (V.dict i (es.update ses)) = true := by
            rw [cleanV, Bool.and_eq_true, Bool.not_eq_true']
            constructor
            · simp [Entries.hasKey_update, hk, hks]
            · exact cleanE_update hcl hcls
          rw [runPhase0_noop _ _ hcl₁]
          dsimp only
          rw [runPhase0_noop _ _ hcl₁]
          dsimp only
          have ih := mergeSources_copyfree pyExec rest i (es.update ses) (c₁ + 1)
            (by simp [Entries.hasKey_update, hk, hks])
            (cleanE_update hcl hcls)
            (fun s hsm => hs s (List.mem_cons_of_mem _ hsm))
          obtain ⟨c', hms⟩ := ih
          exact ⟨c', by rw [hms, mergedE]⟩

/-- Scalar values (no recursion, no directive, never replaced). -/
def scalarV : V → Bool
  | .s _ => true
  | .i _ => true
  | .b _ => true
  | .null => true
  | _ => false

/-- Items that are all scalars. -/
def scalarsI : Items → Bool
  | .nil => true
  | .cons v rest => scalarV v && scalarsI rest

theorem cleanV_of_scalar {K : String} {v : V} (h : scalarV v = true) :
    cleanV K v = true := by
  match v with
  | .s x => rfl
  | .i x => rfl
  | .b x => rfl
  | .null => rfl
  | .dict a b => simp [scalarV] at h
  | .list a b => simp [scalarV] at h
  | .tup a => simp [scalarV] at h
  | .comp a b c => simp [scalarV] at h

theorem cleanI_of_scalars {K : String} {xs : Items} (h : scalarsI xs = true) :
    cleanI K xs = true := by
  match xs with
  | .nil => rfl
  | .cons v rest =>
      rw [scalarsI, Bool.and_eq_true] at h
      rw [cleanI, Bool.and_eq_true]
      exact ⟨cleanV_of_scalar h.1, cleanI_of_scalars h.2⟩

/-- Walking a sequence whose prefix is all scalars just walks the
suffix (with the index advanced past the prefix). -/
theorem walkI_scalarsAppend {σ : Type} (K : String) (h : Handler σ) (isTup : Bool)
    (idx : Nat) (pre rest : Items) (st : σ) (hs : scalarsI pre = true) :
    walkI K h isTup idx (pre.append rest) st =
      match walkI K h isTup (idx + pre.length) rest st with
      | .error e => .error e
      | .ok (ys, st') => .ok (pre.append ys, st') := by
  match pre with
  | .nil =>
      rw [Items.append, Items.length]
      cases hw : walkI K h isTup (idx + 0) rest st with
      | error e => rw [show idx + 0 = idx from rfl] at hw; rw [hw]
      | ok p =>
          obtain ⟨ys, st'⟩ := p
          rw [show idx + 0 = idx from rfl] at hw
          rw [hw]
          rfl
  | .cons v pre' =>
      rw [scalarsI, Bool.and_eq_true] at hs
      rw [Items.append, Items.length]
      have ih := walkI_scalarsAppend K h isTup (idx + 1) pre' rest st hs.2
      have harith : idx + 1 + Items.length pre' = idx + (Items.length pre' + 1) := by omega
      rw [harith] at ih
      match v, hs.1 with
      | .s x, _ =>
          simp only [walkI]
          rw [ih]
          cases hw : walkI K h isTup (idx + (Items.length pre' + 1)) rest st with
          | error e => rfl
          | ok p =>
              obtain ⟨ys, st'⟩ := p
              dsimp only
              rw [Items.append]
      | .i x, _ =>
          simp only [walkI]
          rw [ih]
          cases hw : walkI K h isTup (idx + (Items.length pre' + 1)) rest st with
          | error e => rfl
          | ok p =>
              obtain ⟨ys, st'⟩ := p
              dsimp only
              rw [Items.append]
      | .b x, _ =>
          simp only [walkI]
          rw [ih]
          cases hw : walkI K h isTup (idx + (Items.length pre' + 1)) rest st with
          | error e => rfl
          | ok p =>
              obtain ⟨ys, st'⟩ := p
              dsimp only
              rw [Items.append]
      | .null, _ =>
          simp only [walkI]
          rw [ih]
          cases hw : walkI K h isTup (idx + (Items.length pre' + 1)) rest st with
          | error e => rfl
          | ok p =>
              obtain ⟨ys, st'⟩ := p
              dsimp only
              rw [Items.append]

/-! ## Claims -/

/-- C1.  Self-reference override across merge generations: for
source₁ = {'m': {'x': 1}} and source₂ = {'m': {'__copy__': 'm',
'y': 2}}, process_config(source₁, source₂) yields a tree whose key
'm' equals {'x': 1, 'y': 2}; and in general, whenever the copy
handler's probe of the current source (configs[-1:]) returns the very
node being processed (same object id), the handler resolves the path
using only configs[:-1] — the snapshots taken before the current
source was merged. -/
theorem claim_C1 :
    (processConfig
        [V.dict 1 (.cons "m" (.dict 2 (.cons "x" (.i 1) .nil)) .nil),
         V.dict 3 (.cons "m" (.dict 4 (.cons "__copy__" (.s "m")
            (.cons "y" (.i 2) .nil))) .nil)]
        (fun _ v => v) 10
      = .ok (.dict 10 (.cons "m"
          (.dict 15 (.cons "x" (.i 1) (.cons "y" (.i 2) .nil))) .nil), [], 17))
    ∧ (∀ (cs : List V) (name path : String) (pid : Nat) (es : Entries) (c : Nat) (v : V),
        es.get "__copy__" = some (.s path) →
        resolveCfgs (lastOne cs) path (splitDots path) = .ok v →
        sameObj v pid = true →
        copyCall cs name (.dict pid es) c =
          match resolveCfgs cs.dropLast path (splitDots path) with
          | .error e => .error e
          | .ok w => copyFinish w es c) := by
  constructor
  · rfl
  · intro cs name path pid es c v hget hres hsame
    rw [copyCall, hget]
    dsimp only
    rw [copyResolve, hres]
    dsimp only
    rw [hsame]
    simp

/-- C1 witness: the general self-reference branch applied to the
handler invocation arising in the concrete scenario. -/
theorem claim_C1_witness :
    copyCall
      [V.dict 20 (.cons "m" (.dict 21 (.cons "x" (.i 1) .nil)) .nil),
       V.dict 3 (.cons "m" (.dict 4 (.cons "__copy__" (.s "m")
          (.cons "y" (.i 2) .nil))) .nil)]
      "m" (.dict 4 (.cons "__copy__" (.s "m") (.cons "y" (.i 2) .nil))) 30 =
      match resolveCfgs
          [V.dict 20 (.cons "m" (.dict 21 (.cons "x" (.i 1) .nil)) .nil),
           V.dict 3 (.cons "m" (.dict 4 (.cons "__copy__" (.s "m")
              (.cons "y" (.i 2) .nil))) .nil)].dropLast "m" (splitDots "m") with
      | .error e => .error e
      | .ok w => copyFinish w (.cons "__copy__" (.s "m") (.cons "y" (.i 2) .nil)) 30 :=
  claim_C1.2 _ "m" "m" 4 _ 30 (.dict 4 (.cons "__copy__" (.s "m") (.cons "y" (.i 2) .nil)))
    (by rfl) (by rfl) (by rfl)

/-- C5.  Unresolvable copy path: when the dotted path has a missing
key in every candidate snapshot, the copy handler raises
KeyError(dotted_path), and every such missing key is one of the
path's dotted segments (so the error payload names both the path and,
within it, the offending key). -/
theorem claim_C5 :
    ∀ (cs : List V) (name path : String) (pid : Nat) (es : Entries) (c : Nat),
    es.get "__copy__" = some (.s path) →
    (∀ cfg ∈ cs, ∃ k, lookupParts cfg (splitDots path) = .miss k) →
    copyCall cs name (.dict pid es) c = .error (.keyError path) ∧
      ∀ cfg ∈ cs, ∀ k, lookupParts cfg (splitDots path) = .miss k →
        k ∈ splitDots path := by
  intro cs name path pid es c hget hmiss
  constructor
  · rw [copyCall, hget]
    dsimp only
    rw [copyResolve]
    rw [resolveCfgs_all_miss (fun d hd => hmiss d (lastOne_mem hd))]
    dsimp only
    rw [resolveCfgs_all_miss hmiss]
  · intro cfg _ k hk
    exact lookupParts_miss_mem hk

/-- C5 witness: the copy node {'__copy__': 'does.not.exist'} against
two snapshots that cannot resolve it. -/
theorem claim_C5_witness :
    copyCall [V.dict 0 .nil, V.dict 1 (.cons "does" (.dict 2 .nil) .nil)] "x"
      (.dict 5 (.cons "__copy__" (.s "does.not.exist") .nil)) 10
      = .error (.keyError "does.not.exist") :=
  (claim_C5 [V.dict 0 .nil, V.dict 1 (.cons "does" (.dict 2 .nil) .nil)] "x"
    "does.not.exist" 5 (.cons "__copy__" (.s "does.not.exist") .nil) 10 (by rfl)
    (by
      intro cfg hc
      simp only [List.mem_cons, List.mem_singleton, List.not_mem_nil, or_false] at hc
      rcases hc with rfl | rfl
      · exact ⟨"does", by rfl⟩
      · exact ⟨"not", by rfl⟩)).1

/-- C6 counterexample: a node carrying both the __copy__ and the
__factory__ directive keys is resolved without any error — the claim
that such a node raises a directive-conflict error is false on this
code. -/
theorem claim_C6_cex :
    processConfig
      [V.dict 1 (.cons "a" (.dict 2 (.cons "x" (.i 5) .nil))
        (.cons "b" (.dict 3 (.cons "__copy__" (.s "a")
          (.cons "__factory__" (.s "F") .nil))) .nil))]
      (fun _ v => v) 10
    = .ok (.dict 10
        (.cons "a" (.dict 2 (.cons "x" (.i 5) .nil))
          (.cons "b" (.comp 14 "F" (.cons "x" (.i 5) .nil)) .nil)),
        [.comp 14 "F" (.cons "x" (.i 5) .nil)], 15) := by
  rfl

/-- C6 (amended).  A node carrying more than one directive key does
not raise: each phase handles only its own key, so a node with both
__copy__ and __factory__ is first copy-resolved (the merge preserving
the factory key) and the result is then instantiated by the component
phase. -/
theorem claim_C6 :
    ∀ (F : String) (n : Int),
    processConfig
      [V.dict 1 (.cons "a" (.dict 2 (.cons "x" (.i n) .nil))
        (.cons "b" (.dict 3 (.cons "__copy__" (.s "a")
          (.cons "__factory__" (.s F) .nil))) .nil))]
      (fun _ v => v) 10
    = .ok (.dict 10
        (.cons "a" (.dict 2 (.cons "x" (.i n) .nil))
          (.cons "b" (.comp 14 F (.cons "x" (.i n) .nil)) .nil)),
        [.comp 14 F (.cons "x" (.i n) .nil)], 15) := by
  intro F n
  rfl

/-- C7.  The short alias '!' is NOT recognized by this code: a node
{'!': 'builtins:dict'} passes through all phases untouched and no
component is instantiated, while the same node spelled with
__factory__ is instantiated — contradicting the claim (and the
repository's own examples, which use '!'). -/
theorem claim_C7 :
    (processConfig
        [V.dict 1 (.cons "c" (.dict 2 (.cons "!" (.s "builtins:dict") .nil)) .nil)]
        (fun _ v => v) 10
      = .ok (.dict 10 (.cons "c"
          (.dict 2 (.cons "!" (.s "builtins:dict") .nil)) .nil), [], 13))
    ∧ (processConfig
        [V.dict 1 (.cons "c" (.dict 2 (.cons "__factory__" (.s "builtins:dict") .nil)) .nil)]
        (fun _ v => v) 10
      = .ok (.dict 10 (.cons "c" (.comp 13 "builtins:dict" .nil) .nil),
          [.comp 13 "builtins:dict" .nil], 14)) := by
  exact ⟨rfl, rfl⟩

/-- C9.  Double-initialization: initialize_config on an
already-marked store raises RuntimeError leaving the store untouched;
on an unmarked store it behaves exactly like get_config with the same
extra overrides. -/
theorem claim_C9 :
    (∀ (st : Store) (extra : Entries) (env : Option (List (Except Err V)))
        (pyExec : String → V → V) (c : Nat), st.inited = true →
        initConfigModel st extra env pyExec c
          = (st, .error (.runtimeError "Configuration was already initialized")))
    ∧ (∀ (st : Store) (extra : Entries) (env : Option (List (Except Err V)))
        (pyExec : String → V → V) (c : Nat), st.inited = false →
        initConfigModel st extra env pyExec c = getConfigModel st extra env pyExec c) := by
  constructor
  · intro st extra env pyExec c h
    rw [initConfigModel, if_pos h]
  · intro st extra env pyExec c h
    rw [initConfigModel, if_neg (by rw [h]; exact Bool.false_ne_true)]

/-- C9 witness: both branches at concrete stores. -/
theorem claim_C9_witness :
    (initConfigModel ⟨true, .dict 0 (.cons "k" (.i 1) .nil)⟩ .nil none (fun _ v => v) 5
      = (⟨true, .dict 0 (.cons "k" (.i 1) .nil)⟩,
         .error (.runtimeError "Configuration was already initialized")))
    ∧ (initConfigModel ⟨false, .dict 0 .nil⟩ (.cons "two" (.s "three") .nil) none
        (fun _ v => v) 5
      = getConfigModel ⟨false, .dict 0 .nil⟩ (.cons "two" (.s "three") .nil) none
        (fun _ v => v) 5) :=
  ⟨claim_C9.1 ⟨true, .dict 0 (.cons "k" (.i 1) .nil)⟩ .nil none (fun _ v => v) 5 rfl,
   claim_C9.2 ⟨false, .dict 0 .nil⟩ (.cons "two" (.s "three") .nil) none
     (fun _ v => v) 5 rfl⟩

/-- C2 counterexample: on a first-time call (store not yet marked)
whose source loading raises, the store's flag is nonetheless true
afterwards — the claim that it remains false is wrong on this code,
which sets `initialized = True` before reading any source. -/
theorem claim_C2_cex :
    (getConfigModel ⟨false, .dict 0 .nil⟩ .nil
        (some [.error (.keyError "config1.py")]) (fun _ v => v) 1).1.inited = true := by
  rfl

/-- C2 (amended).  `_get_config` marks the store initialized (and
merges the extra overrides) *before* loading any source, so after any
first-time call — including one in which source loading or
process_config raises — the flag is true; when loading fails the
exception propagates while the store is left marked, holding just the
extra overrides. -/
theorem claim_C2 :
    ∀ (st : Store) (extra : Entries) (env : Option (List (Except Err V)))
      (pyExec : String → V → V) (c : Nat), st.inited = false →
    ((getConfigModel st extra env pyExec c).1.inited = true)
    ∧ (∀ loads e, env = some loads → seqLoads loads = .error e →
        getConfigModel st extra env pyExec c = (⟨true, updStore st.data extra⟩, .error e)) := by
  intro st extra env pyExec c h
  constructor
  · rw [getConfigModel, if_neg (by rw [h]; exact Bool.false_ne_true)]
    match env with
    | none => rfl
    | some loads =>
        dsimp only
        cases hs : seqLoads loads with
        | error e => rfl
        | ok srcs =>
            dsimp only
            cases hp : processConfig (updStore st.data extra :: srcs) pyExec c with
            | error e => rfl
            | ok out =>
                obtain ⟨tree, comps, cnt⟩ := out
                dsimp only
                match tree with
                | .dict i tes => rfl
                | .list i xs => rfl
                | .tup xs => rfl
                | .comp a b2 c2 => rfl
                | .s x => rfl
                | .i x => rfl
                | .b x => rfl
                | .null => rfl
  · intro loads e henv hse
    subst henv
    rw [getConfigModel, if_neg (by rw [h]; exact Bool.false_ne_true)]
    dsimp only
    rw [hse]

/-- C2 witness: the amended claim applied to a concrete store with a
failing load. -/
theorem claim_C2_witness :
    ((getConfigModel ⟨false, .dict 0 .nil⟩ (.cons "foo" (.s "bar") .nil)
        (some [.error (.typeError "eval failed")]) (fun _ v => v) 1).1.inited = true)
    ∧ (∀ loads e,
        (some [.error (.typeError "eval failed")] :
            Option (List (Except Err V))) = some loads →
        seqLoads loads = .error e →
        getConfigModel ⟨false, .dict 0 .nil⟩ (.cons "foo" (.s "bar") .nil)
            (some [.error (.typeError "eval failed")]) (fun _ v => v) 1
          = (⟨true, updStore (Store.mk false (.dict 0 .nil)).data
               (.cons "foo" (.s "bar") .nil)⟩, .error e)) :=
  claim_C2 ⟨false, .dict 0 .nil⟩ (.cons "foo" (.s "bar") .nil)
    (some [.error (.typeError "eval failed")]) (fun _ v => v) 1 rfl

/-- C3.  Bottom-up component instantiation: for the node
{'__factory__': F, 'child': {'__factory__': G}} the inner node is
resolved first — the instantiation list records the G-instance before
the F-instance, and F's 'child' keyword argument is the live
G-component; in general, every component the phase records has
keyword arguments in which no dict (at any depth) still carries the
__factory__ directive key. -/
theorem claim_C3 :
    (∀ (F G k : String) (p i j n : Nat) (l : List V),
      walkV "__factory__" compCall
        (.dict p (.cons k (.dict i (.cons "__factory__" (.s F)
           (.cons "child" (.dict j (.cons "__factory__" (.s G) .nil)) .nil))) .nil))
        ⟨n, l⟩
      = .ok (.dict p (.cons k
          (.comp (n+1) F (.cons "child" (.comp n G .nil) .nil)) .nil),
          ⟨n+2, (l ++ [.comp n G .nil]) ++
            [.comp (n+1) F (.cons "child" (.comp n G .nil) .nil)]⟩))
    ∧ (∀ (v : V) (st : CompSt) (out : V × CompSt),
        compFreeV v = true →
        walkV "__factory__" compCall v st = .ok out →
        cleanTopV "__factory__" out.1 = true ∧
          ∀ c ∈ out.2.comps, c ∈ st.comps ∨ cleanTopV "__factory__" c = true) :=
  ⟨fun F G k p i j n l => rfl, fun v st out hf h => walkFacV_clean v st out hf h⟩

/-- C3 witness: the invariant applied to the concrete two-level
factory node. -/
theorem claim_C3_witness :
    cleanTopV "__factory__" (V.dict 7 (.cons "k"
        (.comp 1 "pkg.F" (.cons "child" (.comp 0 "pkg.G" .nil) .nil)) .nil)) = true ∧
    ∀ c ∈ [V.comp 0 "pkg.G" .nil,
           V.comp 1 "pkg.F" (.cons "child" (.comp 0 "pkg.G" .nil) .nil)],
      c ∈ ([] : List V) ∨ cleanTopV "__factory__" c = true :=
  claim_C3.2
    (V.dict 7 (.cons "k" (.dict 8 (.cons "__factory__" (.s "pkg.F")
       (.cons "child" (.dict 9 (.cons "__factory__" (.s "pkg.G") .nil)) .nil))) .nil))
    ⟨0, []⟩
    (V.dict 7 (.cons "k"
        (.comp 1 "pkg.F" (.cons "child" (.comp 0 "pkg.G" .nil) .nil)) .nil),
     ⟨2, [V.comp 0 "pkg.G" .nil,
          V.comp 1 "pkg.F" (.cons "child" (.comp 0 "pkg.G" .nil) .nil)]⟩)
    (by rfl) (by rfl)

/-- C8.  Copy-with-override merge semantics: when the resolved copy
value is a dict (without its own __copy__ key) and the node carries
keys beyond __copy__, the handler deep-copies the value into a fresh
object (its id is the fresh counter value, distinct from the source
object), merges the node's keys into the copy as overrides (override
values win, __copy__ itself is removed), and preserves a __factory__
key of the copied value exactly when the overrides do not supply
their own. -/
theorem claim_C8 :
    ∀ (cs : List V) (name path : String) (pid j c : Nat) (es ds : Entries),
    es.get "__copy__" = some (.s path) →
    es.length > 1 →
    es.keysNodup = true →
    copyResolve cs path (splitDots path) pid = .ok (.dict j ds) →
    ds.hasKey "__copy__" = false →
    ds.keysNodup = true →
    ∃ res c',
      copyCall cs name (.dict pid es) c = .ok (.dict c res, c') ∧
      res.hasKey "__copy__" = false ∧
      (∀ (k : String) (v : V), k ≠ "__copy__" → es.get k = some v → res.get k = some v) ∧
      (∀ f : String, ds.get "__factory__" = some (.s f) →
        es.hasKey "__factory__" = false → res.get "__factory__" = some (.s f)) ∧
      (j < c → (V.dict c res) ≠ (V.dict j ds)) := by
  intro cs name path pid j c es ds hget hlen hnd hres hdsk hdsnd
  rw [copyCall, hget]
  dsimp only
  rw [hres]
  dsimp only
  rw [copyFinish, deepcopyV]
  cases hdc : deepcopyE ds (c + 1) with
  | mk ds' c' =>
      dsimp only
      rw [if_pos hlen]
      have hk' : ds'.hasKey "__copy__" = false := by
        have hh := deepcopyE_hasKey ds (c + 1) "__copy__"
        rw [hdc] at hh
        dsimp only at hh
        rw [hh]; exact hdsk
      have hnd' : ds'.keysNodup = true := by
        have hh := deepcopyE_keysNodup ds (c + 1)
        rw [hdc] at hh
        dsimp only at hh
        rw [hh]; exact hdsnd
      rw [containsPy]
      dsimp only
      rw [hk']
      simp only [Bool.false_eq_true, if_false]
      refine ⟨(ds'.update es).erase "__copy__", c', rfl, ?_, ?_, ?_, ?_⟩
      · exact Entries.hasKey_erase_self (keysNodup_update hnd')
      · intro k v hne hgk
        rw [Entries.get_erase_ne hne]
        exact Entries.get_update_mem ds' hnd hgk
      · intro f hdf hnofac
        have hne : ("__factory__" : String) ≠ "__copy__" := by decide
        rw [Entries.get_erase_ne hne, Entries.get_update_not_mem ds' hnofac]
        have hh := deepcopyE_get_s ds (c + 1) hdf
        rw [hdc] at hh
        exact hh
      · intro hlt heq
        injection heq with h1 h2
        omega

/-- C8 witness: copying a factory-bearing dict with one override
key. -/
theorem claim_C8_witness :
    ∃ res c',
      copyCall [V.dict 0 (.cons "a" (.dict 1 (.cons "__factory__" (.s "pkg.F")
          (.cons "x" (.i 1) .nil))) .nil)] "b"
        (.dict 5 (.cons "__copy__" (.s "a") (.cons "x" (.i 2) .nil))) 10
        = .ok (.dict 10 res, c') ∧
      res.hasKey "__copy__" = false ∧
      (∀ (k : String) (v : V), k ≠ "__copy__" →
        Entries.get (.cons "__copy__" (.s "a") (.cons "x" (.i 2) .nil)) k = some v →
        res.get k = some v) ∧
      (∀ f : String,
        Entries.get (.cons "__factory__" (.s "pkg.F") (.cons "x" (.i 1) .nil))
            "__factory__" = some (.s f) →
        Entries.hasKey (.cons "__copy__" (.s "a") (.cons "x" (.i 2) .nil))
            "__factory__" = false →
        res.get "__factory__" = some (.s f)) ∧
      (1 < 10 → (V.dict 10 res)
        ≠ (V.dict 1 (.cons "__factory__" (.s "pkg.F") (.cons "x" (.i 1) .nil)))) :=
  claim_C8 [V.dict 0 (.cons "a" (.dict 1 (.cons "__factory__" (.s "pkg.F")
      (.cons "x" (.i 1) .nil))) .nil)] "b" "a" 5 1 10
    (.cons "__copy__" (.s "a") (.cons "x" (.i 2) .nil))
    (.cons "__factory__" (.s "pkg.F") (.cons "x" (.i 1) .nil))
    (by rfl) (by decide) (by rfl) (by rfl) (by rfl) (by rfl)

/-- C10.  Directive nodes directly inside tuples: the walk recurses
into the tuple, runs the handler on a directive-bearing dict element,
and then the item assignment props[i] = ... raises TypeError, because
tuples are immutable — the same element inside a list is replaced in
place.  Stated for the component phase, with scalar siblings. -/
theorem claim_C10 :
    ∀ (pre post : Items) (pid lid : Nat) (es : Entries) (f : String) (st : CompSt),
    scalarsI pre = true → scalarsI post = true →
    es.get "__factory__" = some (.s f) →
    cleanE "__factory__" es = true →
    (walkV "__factory__" compCall (.tup (pre.append (.cons (.dict pid es) post))) st
       = .error (.typeError "tuple object does not support item assignment"))
    ∧ (∀ (dd : Nat) (kk : String),
        walkV "__factory__" compCall
          (.dict dd (.cons kk (.tup (pre.append (.cons (.dict pid es) post))) .nil)) st
        = .error (.typeError "tuple object does not support item assignment"))
    ∧ (walkV "__factory__" compCall (.list lid (pre.append (.cons (.dict pid es) post))) st
       = .ok (.list lid (pre.append (.cons
           (.comp st.cnt f (es.erase "__factory__")) post)),
           ⟨st.cnt + 1, st.comps ++ [.comp st.cnt f (es.erase "__factory__")]⟩)) := by
  intro pre post pid lid es f st hpre hpost hget hcl
  have hwd : walkV "__factory__" compCall (.dict pid es) st = .ok (.dict pid es, st) := by
    rw [walkV, walkE_noop _ _ _ _ hcl]
  have hkey : Entries.hasKey es "__factory__" = true := Entries.get_some_hasKey hget
  have hcc : ∀ name, compCall name (.dict pid es) st
      = .ok (.comp st.cnt f (es.erase "__factory__"),
             ⟨st.cnt + 1, st.comps ++ [.comp st.cnt f (es.erase "__factory__")]⟩) := by
    intro name
    rw [compCall, hget]
  have hnoop : ∀ (idx : Nat) (st2 : CompSt),
      walkI "__factory__" compCall false idx post st2 = .ok (post, st2) :=
    fun idx st2 => walkI_noop _ _ _ _ _ _ (cleanI_of_scalars hpost)
  have htup : walkI "__factory__" compCall true 0
      (pre.append (.cons (.dict pid es) post)) st
      = .error (.typeError "tuple object does not support item assignment") := by
    rw [walkI_scalarsAppend _ _ _ _ _ _ _ hpre]
    have hstep : walkI "__factory__" compCall true (0 + pre.length)
        (.cons (.dict pid es) post) st
        = .error (.typeError "tuple object does not support item assignment") := by
      rw [walkI, hwd]
      simp only [keyIn]
      rw [hkey]
      simp [hcc]
    rw [hstep]
  have hlist : walkI "__factory__" compCall false 0
      (pre.append (.cons (.dict pid es) post)) st
      = .ok (pre.append (.cons (.comp st.cnt f (es.erase "__factory__")) post),
             ⟨st.cnt + 1, st.comps ++ [.comp st.cnt f (es.erase "__factory__")]⟩) := by
    rw [walkI_scalarsAppend _ _ _ _ _ _ _ hpre]
    have hstep : walkI "__factory__" compCall false (0 + pre.length)
        (.cons (.dict pid es) post) st
        = .ok (.cons (.comp st.cnt f (es.erase "__factory__")) post,
               ⟨st.cnt + 1, st.comps ++ [.comp st.cnt f (es.erase "__factory__")]⟩) := by
      rw [walkI, hwd]
      simp only [keyIn]
      simp only [hkey]
      simp [hcc, hnoop]
    rw [hstep]
  refine ⟨?_, ?_, ?_⟩
  · rw [walkV, htup]
  · intro dd kk
    rw [walkV, walkE, walkV, htup]
  · rw [walkV, hlist]

/-- C10 witness: a tuple (1, {'__factory__': 'pkg.F', 'x': 2}, 'z')
raises, the same list succeeds. -/
theorem claim_C10_witness :
    (walkV "__factory__" compCall (.tup (Items.append (.cons (.i 1) .nil)
        (.cons (.dict 4 (.cons "__factory__" (.s "pkg.F") (.cons "x" (.i 2) .nil)))
          (.cons (.s "z") .nil)))) ⟨0, []⟩
      = .error (.typeError "tuple object does not support item assignment"))
    ∧ (∀ (dd : Nat) (kk : String),
        walkV "__factory__" compCall
          (.dict dd (.cons kk (.tup (Items.append (.cons (.i 1) .nil)
            (.cons (.dict 4 (.cons "__factory__" (.s "pkg.F") (.cons "x" (.i 2) .nil)))
              (.cons (.s "z") .nil)))) .nil)) ⟨0, []⟩
        = .error (.typeError "tuple object does not support item assignment"))
    ∧ (walkV "__factory__" compCall (.list 9 (Items.append (.cons (.i 1) .nil)
        (.cons (.dict 4 (.cons "__factory__" (.s "pkg.F") (.cons "x" (.i 2) .nil)))
          (.cons (.s "z") .nil)))) ⟨0, []⟩
      = .ok (.list 9 (Items.append (.cons (.i 1) .nil)
          (.cons (.comp (CompSt.mk 0 []).cnt "pkg.F"
            (Entries.erase (.cons "__factory__" (.s "pkg.F") (.cons "x" (.i 2) .nil))
              "__factory__")) (.cons (.s "z") .nil))),
          ⟨(CompSt.mk 0 []).cnt + 1, (CompSt.mk 0 []).comps
            ++ [.comp (CompSt.mk 0 []).cnt "pkg.F"
              (Entries.erase (.cons "__factory__" (.s "pkg.F") (.cons "x" (.i 2) .nil))
                "__factory__")]⟩)) :=
  claim_C10 (.cons (.i 1) .nil)
    (.cons (.s "z") .nil) 4 9
    (.cons "__factory__" (.s "pkg.F") (.cons "x" (.i 2) .nil)) "pkg.F" ⟨0, []⟩
    (by rfl) (by rfl) (by rfl) (by rfl)

/-- C4.  Python-patch phase strictly precedes the component phase:
with two sources free of copy directives whose only __python__
directive is a top-level key of the second source, process_config
equals the component phase applied to the patch function's output —
the patch is applied exactly once, to the fully merged tree (with the
__python__ key popped), before any factory is resolved; and when the
patch inserts a fresh top-level node {'__factory__': F} under 'b'
into an otherwise factory-free tree, the component phase instantiates
exactly that node. -/
theorem claim_C4 :
    ∀ (i1 i2 c : Nat) (s1es s2es : Entries) (stmts : String) (pyExec : String → V → V),
    s1es.hasKey "__copy__" = false → cleanE "__copy__" s1es = true →
    s2es.hasKey "__copy__" = false → cleanE "__copy__" s2es = true →
    cleanE "__python__" s1es = true → cleanE "__python__" s2es = true →
    s2es.keysNodup = true →
    s2es.get "__python__" = some (.s stmts) →
    (∃ c₁, processConfig [.dict i1 s1es, .dict i2 s2es] pyExec c
        = finishComponents (pyExec stmts (.dict c
            ((Entries.update (Entries.update .nil s1es) s2es).erase "__python__"))) c₁)
    ∧ (∀ (F : String) (bid : Nat),
        cleanE "__factory__" s1es = true → cleanE "__factory__" s2es = true →
        s1es.hasKey "__factory__" = false → s2es.hasKey "__factory__" = false →
        (Entries.update (Entries.update .nil s1es) s2es).hasKey "b" = false →
        pyExec stmts (.dict c
            ((Entries.update (Entries.update .nil s1es) s2es).erase "__python__"))
          = .dict c (((Entries.update (Entries.update .nil s1es) s2es).erase
              "__python__").set "b" (.dict bid (.cons "__factory__" (.s F) .nil))) →
        ∃ c₁, processConfig [.dict i1 s1es, .dict i2 s2es] pyExec c
          = .ok (.dict c (((Entries.update (Entries.update .nil s1es) s2es).erase
                "__python__").append (.cons "b" (.comp c₁ F .nil) .nil)),
              [.comp c₁ F .nil], c₁ + 1)) := by
  intro i1 i2 c s1es s2es stmts pyExec hk1 hc1 hk2 hc2 hp1 hp2 hnd2 hget
  have hsrcs : ∀ s ∈ [V.dict i1 s1es, V.dict i2 s2es], ∃ j ses,
      s = V.dict j ses ∧ ses.hasKey "__copy__" = false ∧ cleanE "__copy__" ses = true := by
    intro s hs
    simp only [List.mem_cons, List.mem_singleton, List.not_mem_nil, or_false] at hs
    rcases hs with rfl | rfl
    · exact ⟨i1, s1es, rfl, hk1, hc1⟩
    · exact ⟨i2, s2es, rfl, hk2, hc2⟩
  obtain ⟨c₁, hms⟩ := mergeSources_copyfree pyExec [V.dict i1 s1es, V.dict i2 s2es]
    c Entries.nil (c + 1) rfl rfl hsrcs
  have hmE : mergedE Entries.nil [V.dict i1 s1es, V.dict i2 s2es]
      = Entries.update (Entries.update Entries.nil s1es) s2es := by
    rw [mergedE, mergedE, mergedE]
  rw [hmE] at hms
  have hmclean : cleanE "__python__"
      (Entries.update (Entries.update Entries.nil s1es) s2es) = true :=
    cleanE_update (cleanE_update rfl hp1) hp2
  have hmget : (Entries.update (Entries.update Entries.nil s1es) s2es).get "__python__"
      = some (.s stmts) :=
    Entries.get_update_mem _ hnd2 hget
  constructor
  · refine ⟨c₁, ?_⟩
    rw [processConfig, hms]
    dsimp only
    rw [runPhase1_root pyExec hmclean hmget]
  · intro F bid hf1 hf2 hkf1 hkf2 hkb hpy
    refine ⟨c₁, ?_⟩
    rw [processConfig, hms]
    dsimp only
    rw [runPhase1_root pyExec hmclean hmget]
    dsimp only
    rw [hpy]
    have hMf : ((Entries.update (Entries.update Entries.nil s1es) s2es).erase
        "__python__").hasKey "__factory__" = false := by
      rw [Entries.hasKey_erase_ne (by decide)]
      simp [Entries.hasKey_update, Entries.hasKey, hkf1, hkf2]
    have hMcleanF : cleanE "__factory__"
        ((Entries.update (Entries.update Entries.nil s1es) s2es).erase "__python__")
        = true :=
      cleanE_erase (cleanE_update (cleanE_update rfl hf1) hf2)
    have hMb : ((Entries.update (Entries.update Entries.nil s1es) s2es).erase
        "__python__").hasKey "b" = false := by
      rw [Entries.hasKey_erase_ne (by decide)]
      exact hkb
    rw [set_fresh_append hMb]
    rw [finishComponents, runPhase2, walkV]
    rw [walkE_cleanAppend _ _ _ _ _ hMcleanF]
    have hsingle : walkE "__factory__" compCall
        (.cons "b" (.dict bid (.cons "__factory__" (.s F) .nil)) .nil)
        (⟨c₁, []⟩ : CompSt)
        = .ok (.cons "b" (.comp c₁ F .nil) .nil, ⟨c₁ + 1, [.comp c₁ F .nil]⟩) := by
      rfl
    rw [hsingle]
    dsimp only
    simp [keyIn, hasKey_append, hMf, Entries.hasKey]

/-- C4 witness: sources {'a': 1} and {'a': 2, '__python__': 'patch'},
where the patch inserts {'__factory__': 'pkg.F'} under 'b'. -/
theorem claim_C4_witness :
    (∃ c₁, processConfig
        [V.dict 1 (.cons "a" (.i 1) .nil),
         V.dict 2 (.cons "a" (.i 2) (.cons "__python__" (.s "patch") .nil))]
        (fun _ v => match v with
          | .dict i es => .dict i (es.set "b"
              (.dict 99 (.cons "__factory__" (.s "pkg.F") .nil)))
          | w => w) 10
      = finishComponents
          ((fun (_ : String) (v : V) => match v with
            | .dict i es => .dict i (es.set "b"
                (.dict 99 (.cons "__factory__" (.s "pkg.F") .nil)))
            | w => w) "patch"
            (.dict 10 ((Entries.update (Entries.update .nil
                (.cons "a" (.i 1) .nil))
                (.cons "a" (.i 2) (.cons "__python__" (.s "patch") .nil))).erase
              "__python__"))) c₁)
    ∧ (∃ c₁, processConfig
        [V.dict 1 (.cons "a" (.i 1) .nil),
         V.dict 2 (.cons "a" (.i 2) (.cons "__python__" (.s "patch") .nil))]
        (fun _ v => match v with
          | .dict i es => .dict i (es.set "b"
              (.dict 99 (.cons "__factory__" (.s "pkg.F") .nil)))
          | w => w) 10
      = .ok (.dict 10 (((Entries.update (Entries.update .nil
            (.cons "a" (.i 1) .nil))
            (.cons "a" (.i 2) (.cons "__python__" (.s "patch") .nil))).erase
            "__python__").append (.cons "b" (.comp c₁ "pkg.F" .nil) .nil)),
          [.comp c₁ "pkg.F" .nil], c₁ + 1)) :=
  have h := claim_C4 1 2 10 (.cons "a" (.i 1) .nil)
    (.cons "a" (.i 2) (.cons "__python__" (.s "patch") .nil)) "patch"
    (fun _ v => match v with
      | .dict i es => .dict i (es.set "b"
          (.dict 99 (.cons "__factory__" (.s "pkg.F") .nil)))
      | w => w)
    (by rfl) (by rfl) (by rfl) (by rfl) (by rfl) (by rfl) (by rfl) (by rfl)
  ⟨h.1, h.2 "pkg.F" 99 (by rfl) (by rfl) (by rfl) (by rfl) (by rfl) (by rfl)⟩
